import Mathlib

set_option maxHeartbeats 1000000

/-!
Shallow embedding of `src/librustc_metadata/tyencode.rs` (the compact type
encoder of the rustc metadata crate) and proofs about it.

Conventions of the embedding:
* The output stream (`Cursor<Vec<u8>>`, written only at the end, so that
  `w.position()` always equals the buffer length) is a `List Nat` of bytes;
  the cursor position is the list length.
* Strings written by `write!` are converted to bytes; all literal tags are
  ASCII, so byte values are the character codes.  Externally resolved
  strings (the def-path resolver output and interned names) are modelled
  directly as their byte lists.
* `bug!` (fatal diagnostic abort) is modelled by an error result that
  carries the stream/cache state at the moment of the abort.
* The abbreviation cache (`FnvHashMap<Ty, ty_abbrev>`) is an association
  list keyed by the type expression; interning makes structural equality
  coincide with handle identity, so the key type uses structural equality.
-/

/-- `ast::IntTy`. -/
inductive IntTy where
  | Is | I8 | I16 | I32 | I64
deriving DecidableEq, Repr

/-- `ast::UintTy`. -/
inductive UintTy where
  | Us | U8 | U16 | U32 | U64
deriving DecidableEq, Repr

/-- `ast::FloatTy`. -/
inductive FloatTy where
  | F32 | F64
deriving DecidableEq, Repr

/-- `hir::Mutability`. -/
inductive Mutability where
  | MutImmutable | MutMutable
deriving DecidableEq, Repr

/-- `hir::Unsafety`. -/
inductive Unsafety where
  | Normal | Unsafe_
deriving DecidableEq, Repr

/-- `ty::Issue32330` — the optional migration-compatibility payload of a
named bound region.  Names and def-ids are modelled as resolved byte
strings / opaque numeric ids. -/
inductive Issue32330 where
  | WontChange
  | WillChange (fn_def_id : Nat) (region_name : List Nat)
deriving DecidableEq, Repr

/-- `ty::BoundRegion`. -/
inductive BoundRegion where
  | BrAnon (idx : Nat)
  | BrNamed (d : Nat) (name : List Nat) (issue : Issue32330)
  | BrFresh (id : Nat)
  | BrEnv
deriving DecidableEq, Repr

/-- `region::CodeExtentData` — the five scope shapes returned by the
external scope resolver. -/
inductive CodeExtentData where
  | CallSiteScope (fn_id body_id : Nat)
  | ParameterScope (fn_id body_id : Nat)
  | Misc (node_id : Nat)
  | Remainder (block first_statement_index : Nat)
  | DestructionScope (node_id : Nat)
deriving DecidableEq, Repr

/-- `ty::Region`.  `ReVar`/`ReSkolemized` are the two inference-only
variants that are illegal at encoding time. -/
inductive Region where
  | ReLateBound (depth : Nat) (br : BoundRegion)
  | ReEarlyBound (index : Nat) (name : List Nat)
  | ReFree (scope : Nat) (bound_region : BoundRegion)
  | ReScope (scope : Nat)
  | ReStatic
  | ReEmpty
  | ReErased
  | ReVar (vid : Nat)
  | ReSkolemized (id : Nat) (br : BoundRegion)
deriving DecidableEq, Repr

/-- `ty::BuiltinBounds` — a set over the four builtin bounds, iterated in
declaration order Send, Sized, Copy, Sync. -/
structure BuiltinBounds where
  send : Bool
  sized : Bool
  copy : Bool
  sync : Bool
deriving DecidableEq, Repr

/-- `ty::ObjectLifetimeDefault`. -/
inductive ObjectLifetimeDefault where
  | Ambiguous
  | BaseDefault
  | Specific (r : Region)
deriving DecidableEq, Repr

mutual
/-- `ty::TypeVariants` (`t.sty`): the type-expression algebra.  Def-ids are
opaque numeric handles, names are resolved byte strings.  `TyInfer` is the
inference placeholder that must never reach the encoder. -/
inductive Ty where
  | TyBool
  | TyChar
  | TyNever
  | TyInt (t : IntTy)
  | TyUint (t : UintTy)
  | TyFloat (t : FloatTy)
  | TyStr
  | TyTrait (principal : ExistentialTraitRef) (builtin_bounds : BuiltinBounds)
      (region_bound : Region) (projection_bounds : List ExistentialProjection)
  | TyTuple (ts : List Ty)
  | TyBox (typ : Ty)
  | TyRawPtr (mutbl : Mutability) (ty : Ty)
  | TyRef (r : Region) (mutbl : Mutability) (ty : Ty)
  | TyArray (t : Ty) (sz : Nat)
  | TySlice (t : Ty)
  | TyFnDef (def_id : Nat) (substs : List Kind) (f : BareFnTy)
  | TyFnPtr (f : BareFnTy)
  | TyInfer (v : Nat)
  | TyParam (idx : Nat) (name : List Nat)
  | TyAdt (did : Nat) (substs : List Kind)
  | TyClosure (d : Nat) (func_substs : List Kind) (upvar_tys : List Ty)
  | TyProjection (trait_ref : TraitRef) (item_name : List Nat)
  | TyAnon (def_id : Nat) (substs : List Kind)
  | TyError

/-- `ty::subst::Kind`, a substitution element: a type, a region, or (the
defensive `bug!()` branch of `enc_substs`) an unrecognized argument kind. -/
inductive Kind where
  | asType (t : Ty)
  | asRegion (r : Region)
  | other

/-- `ty::BareFnTy`: unsafety, ABI (its resolved name bytes), signature. -/
inductive BareFnTy where
  | mk (unsafety : Unsafety) (abi : List Nat) (sig : FnSig)

/-- `ty::PolyFnSig` / `ty::FnSig`: inputs, output, variadic flag. -/
inductive FnSig where
  | mk (inputs : List Ty) (output : Ty) (variadic : Bool)

/-- `ty::TraitRef`. -/
inductive TraitRef where
  | mk (def_id : Nat) (substs : List Kind)

/-- `ty::ExistentialTraitRef`. -/
inductive ExistentialTraitRef where
  | mk (def_id : Nat) (substs : List Kind)

/-- `ty::ExistentialProjection`. -/
inductive ExistentialProjection where
  | mk (trait_ref : ExistentialTraitRef) (item_name : List Nat) (ty : Ty)
end
/-! Structural (interned-handle) equality for the type algebra.  rustc keys
the abbreviation cache by the interned `Ty` handle; interning makes handle
equality coincide with structural equality, which we decide here. -/

mutual
def tyBeq : Ty → Ty → Bool
  | .TyBool, b => match b with | .TyBool => true | _ => false
  | .TyChar, b => match b with | .TyChar => true | _ => false
  | .TyNever, b => match b with | .TyNever => true | _ => false
  | .TyInt t, b => match b with | .TyInt t' => t == t' | _ => false
  | .TyUint t, b => match b with | .TyUint t' => t == t' | _ => false
  | .TyFloat t, b => match b with | .TyFloat t' => t == t' | _ => false
  | .TyStr, b => match b with | .TyStr => true | _ => false
  | .TyTrait p bb rb pbs, b =>
    match b with
    | .TyTrait p' bb' rb' pbs' =>
      etrBeq p p' && (bb == bb') && (rb == rb') && projsBeq pbs pbs'
    | _ => false
  | .TyTuple ts, b => match b with | .TyTuple ts' => tysBeq ts ts' | _ => false
  | .TyBox t, b => match b with | .TyBox t' => tyBeq t t' | _ => false
  | .TyRawPtr m t, b =>
    match b with | .TyRawPtr m' t' => (m == m') && tyBeq t t' | _ => false
  | .TyRef r m t, b =>
    match b with
    | .TyRef r' m' t' => (r == r') && (m == m') && tyBeq t t'
    | _ => false
  | .TyArray t n, b =>
    match b with | .TyArray t' n' => tyBeq t t' && (n == n') | _ => false
  | .TySlice t, b => match b with | .TySlice t' => tyBeq t t' | _ => false
  | .TyFnDef d ks f, b =>
    match b with
    | .TyFnDef d' ks' f' => (d == d') && kindsBeq ks ks' && bareBeq f f'
    | _ => false
  | .TyFnPtr f, b => match b with | .TyFnPtr f' => bareBeq f f' | _ => false
  | .TyInfer v, b => match b with | .TyInfer v' => v == v' | _ => false
  | .TyParam i n, b =>
    match b with | .TyParam i' n' => (i == i') && (n == n') | _ => false
  | .TyAdt d ks, b =>
    match b with | .TyAdt d' ks' => (d == d') && kindsBeq ks ks' | _ => false
  | .TyClosure d ks us, b =>
    match b with
    | .TyClosure d' ks' us' => (d == d') && kindsBeq ks ks' && tysBeq us us'
    | _ => false
  | .TyProjection tr n, b =>
    match b with
    | .TyProjection tr' n' => trBeq tr tr' && (n == n')
    | _ => false
  | .TyAnon d ks, b =>
    match b with | .TyAnon d' ks' => (d == d') && kindsBeq ks ks' | _ => false
  | .TyError, b => match b with | .TyError => true | _ => false

def tysBeq : List Ty → List Ty → Bool
  | [], bs => match bs with | [] => true | _ => false
  | a :: as, bs =>
    match bs with
    | b :: bs' => tyBeq a b && tysBeq as bs'
    | _ => false

def kindBeq : Kind → Kind → Bool
  | .asType t, b => match b with | .asType t' => tyBeq t t' | _ => false
  | .asRegion r, b => match b with | .asRegion r' => r == r' | _ => false
  | .other, b => match b with | .other => true | _ => false

def kindsBeq : List Kind → List Kind → Bool
  | [], bs => match bs with | [] => true | _ => false
  | a :: as, bs =>
    match bs with
    | b :: bs' => kindBeq a b && kindsBeq as bs'
    | _ => false

def bareBeq : BareFnTy → BareFnTy → Bool
  | .mk u abi sig, b =>
    match b with
    | .mk u' abi' sig' => (u == u') && (abi == abi') && sigBeq sig sig'

def sigBeq : FnSig → FnSig → Bool
  | .mk ins out var, b =>
    match b with
    | .mk ins' out' var' => tysBeq ins ins' && tyBeq out out' && (var == var')

def trBeq : TraitRef → TraitRef → Bool
  | .mk d ks, b => match b with | .mk d' ks' => (d == d') && kindsBeq ks ks'

def etrBeq : ExistentialTraitRef → ExistentialTraitRef → Bool
  | .mk d ks, b => match b with | .mk d' ks' => (d == d') && kindsBeq ks ks'

def projBeq : ExistentialProjection → ExistentialProjection → Bool
  | .mk tr n t, b =>
    match b with
    | .mk tr' n' t' => etrBeq tr tr' && (n == n') && tyBeq t t'

def projsBeq : List ExistentialProjection → List ExistentialProjection → Bool
  | [], bs => match bs with | [] => true | _ => false
  | a :: as, bs =>
    match bs with
    | b :: bs' => projBeq a b && projsBeq as bs'
    | _ => false
end

mutual

theorem tyBeq_refl : (a : Ty) → tyBeq a a = true
  | .TyBool | .TyChar | .TyNever | .TyStr | .TyError => by simp [tyBeq]
  | .TyInt t | .TyUint t | .TyFloat t => by simp [tyBeq]
  | .TyInfer v => by simp [tyBeq]
  | .TyParam i n => by simp [tyBeq]
  | .TyTrait p bb rb pbs => by
    simp [tyBeq]
    exact ⟨etrBeq_refl p, projsBeq_refl pbs⟩
  | .TyTuple ts => by simp [tyBeq]; exact tysBeq_refl ts
  | .TyBox t => by simp [tyBeq]; exact tyBeq_refl t
  | .TyRawPtr m t => by simp [tyBeq]; exact tyBeq_refl t
  | .TyRef r m t => by simp [tyBeq]; exact tyBeq_refl t
  | .TyArray t n => by simp [tyBeq]; exact tyBeq_refl t
  | .TySlice t => by simp [tyBeq]; exact tyBeq_refl t
  | .TyFnDef d ks f => by
    simp [tyBeq]; exact ⟨kindsBeq_refl ks, bareBeq_refl f⟩
  | .TyFnPtr f => by simp [tyBeq]; exact bareBeq_refl f
  | .TyAdt d ks => by simp [tyBeq]; exact kindsBeq_refl ks
  | .TyClosure d ks us => by
    simp [tyBeq]; exact ⟨kindsBeq_refl ks, tysBeq_refl us⟩
  | .TyProjection tr n => by simp [tyBeq]; exact trBeq_refl tr
  | .TyAnon d ks => by simp [tyBeq]; exact kindsBeq_refl ks

theorem tysBeq_refl : (as : List Ty) → tysBeq as as = true
  | [] => by simp [tysBeq]
  | a :: as => by simp [tysBeq]; exact ⟨tyBeq_refl a, tysBeq_refl as⟩

theorem kindBeq_refl : (k : Kind) → kindBeq k k = true
  | .asType t => by simp [kindBeq]; exact tyBeq_refl t
  | .asRegion r => by simp [kindBeq]
  | .other => by simp [kindBeq]

theorem kindsBeq_refl : (ks : List Kind) → kindsBeq ks ks = true
  | [] => by simp [kindsBeq]
  | k :: ks => by simp [kindsBeq]; exact ⟨kindBeq_refl k, kindsBeq_refl ks⟩

theorem bareBeq_refl : (f : BareFnTy) → bareBeq f f = true
  | .mk u abi sig => by simp [bareBeq]; exact sigBeq_refl sig

theorem sigBeq_refl : (sig : FnSig) → sigBeq sig sig = true
  | .mk ins out var => by
    simp [sigBeq]; exact ⟨tysBeq_refl ins, tyBeq_refl out⟩

theorem trBeq_refl : (tr : TraitRef) → trBeq tr tr = true
  | .mk d ks => by simp [trBeq]; exact kindsBeq_refl ks

theorem etrBeq_refl : (tr : ExistentialTraitRef) → etrBeq tr tr = true
  | .mk d ks => by simp [etrBeq]; exact kindsBeq_refl ks

theorem projBeq_refl : (p : ExistentialProjection) → projBeq p p = true
  | .mk tr n t => by simp [projBeq]; exact ⟨etrBeq_refl tr, tyBeq_refl t⟩

theorem projsBeq_refl : (ps : List ExistentialProjection) → projsBeq ps ps = true
  | [] => by simp [projsBeq]
  | p :: ps => by simp [projsBeq]; exact ⟨projBeq_refl p, projsBeq_refl ps⟩

end

mutual

theorem tyBeq_eq : (a b : Ty) → tyBeq a b = true → a = b
  | .TyBool, b => by cases b <;> simp [tyBeq]
  | .TyChar, b => by cases b <;> simp [tyBeq]
  | .TyNever, b => by cases b <;> simp [tyBeq]
  | .TyStr, b => by cases b <;> simp [tyBeq]
  | .TyError, b => by cases b <;> simp [tyBeq]
  | .TyInt t, b => by cases b <;> simp [tyBeq]
  | .TyUint t, b => by cases b <;> simp [tyBeq]
  | .TyFloat t, b => by cases b <;> simp [tyBeq]
  | .TyInfer v, b => by cases b <;> simp [tyBeq]
  | .TyParam i n, b => by cases b <;> simp [tyBeq]
  | .TyTrait p bb rb pbs, b => by
    cases b <;> simp [tyBeq]
    rename_i p' bb' rb' pbs'
    intro h1 h2 h3 h4
    exact ⟨etrBeq_eq p p' h1, h2, h3, projsBeq_eq pbs pbs' h4⟩
  | .TyTuple ts, b => by
    cases b <;> simp [tyBeq]
    rename_i ts'
    exact tysBeq_eq ts ts'
  | .TyBox t, b => by
    cases b <;> simp [tyBeq]
    rename_i t'
    exact tyBeq_eq t t'
  | .TyRawPtr m t, b => by
    cases b <;> simp [tyBeq]
    rename_i m' t'
    intro h1 h2
    exact ⟨h1, tyBeq_eq t t' h2⟩
  | .TyRef r m t, b => by
    cases b <;> simp [tyBeq]
    rename_i r' m' t'
    intro h1 h2 h3
    exact ⟨h1, h2, tyBeq_eq t t' h3⟩
  | .TyArray t n, b => by
    cases b <;> simp [tyBeq]
    rename_i t' n'
    intro h1 h2
    exact ⟨tyBeq_eq t t' h1, h2⟩
  | .TySlice t, b => by
    cases b <;> simp [tyBeq]
    rename_i t'
    exact tyBeq_eq t t'
  | .TyFnDef d ks f, b => by
    cases b <;> simp [tyBeq]
    rename_i d' ks' f'
    intro h1 h2 h3
    exact ⟨h1, kindsBeq_eq ks ks' h2, bareBeq_eq f f' h3⟩
  | .TyFnPtr f, b => by
    cases b <;> simp [tyBeq]
    rename_i f'
    exact bareBeq_eq f f'
  | .TyAdt d ks, b => by
    cases b <;> simp [tyBeq]
    rename_i d' ks'
    intro h1 h2
    exact ⟨h1, kindsBeq_eq ks ks' h2⟩
  | .TyClosure d ks us, b => by
    cases b <;> simp [tyBeq]
    rename_i d' ks' us'
    intro h1 h2 h3
    exact ⟨h1, kindsBeq_eq ks ks' h2, tysBeq_eq us us' h3⟩
  | .TyProjection tr n, b => by
    cases b <;> simp [tyBeq]
    rename_i tr' n'
    intro h1 h2
    exact ⟨trBeq_eq tr tr' h1, h2⟩
  | .TyAnon d ks, b => by
    cases b <;> simp [tyBeq]
    rename_i d' ks'
    intro h1 h2
    exact ⟨h1, kindsBeq_eq ks ks' h2⟩

theorem tysBeq_eq : (as bs : List Ty) → tysBeq as bs = true → as = bs
  | [], bs => by cases bs <;> simp [tysBeq]
  | a :: as, bs => by
    cases bs <;> simp [tysBeq]
    rename_i b bs'
    intro h1 h2
    exact ⟨tyBeq_eq a b h1, tysBeq_eq as bs' h2⟩

theorem kindBeq_eq : (a b : Kind) → kindBeq a b = true → a = b
  | .asType t, b => by
    cases b <;> simp [kindBeq]
    rename_i t'
    exact tyBeq_eq t t'
  | .asRegion r, b => by cases b <;> simp [kindBeq]
  | .other, b => by cases b <;> simp [kindBeq]

theorem kindsBeq_eq : (as bs : List Kind) → kindsBeq as bs = true → as = bs
  | [], bs => by cases bs <;> simp [kindsBeq]
  | a :: as, bs => by
    cases bs <;> simp [kindsBeq]
    rename_i b bs'
    intro h1 h2
    exact ⟨kindBeq_eq a b h1, kindsBeq_eq as bs' h2⟩

theorem bareBeq_eq : (a b : BareFnTy) → bareBeq a b = true → a = b
  | .mk u abi sig, .mk u' abi' sig' => by
    simp [bareBeq]
    intro h1 h2 h3
    exact ⟨h1, h2, sigBeq_eq sig sig' h3⟩

theorem sigBeq_eq : (a b : FnSig) → sigBeq a b = true → a = b
  | .mk ins out var, .mk ins' out' var' => by
    simp [sigBeq]
    intro h1 h2 h3
    exact ⟨tysBeq_eq ins ins' h1, tyBeq_eq out out' h2, h3⟩

theorem trBeq_eq : (a b : TraitRef) → trBeq a b = true → a = b
  | .mk d ks, .mk d' ks' => by
    simp [trBeq]
    intro h1 h2
    exact ⟨h1, kindsBeq_eq ks ks' h2⟩

theorem etrBeq_eq : (a b : ExistentialTraitRef) → etrBeq a b = true → a = b
  | .mk d ks, .mk d' ks' => by
    simp [etrBeq]
    intro h1 h2
    exact ⟨h1, kindsBeq_eq ks ks' h2⟩

theorem projBeq_eq : (a b : ExistentialProjection) → projBeq a b = true → a = b
  | .mk tr n t, .mk tr' n' t' => by
    simp [projBeq]
    intro h1 h2 h3
    exact ⟨etrBeq_eq tr tr' h1, h2, tyBeq_eq t t' h3⟩

theorem projsBeq_eq :
    (as bs : List ExistentialProjection) → projsBeq as bs = true → as = bs
  | [], bs => by cases bs <;> simp [projsBeq]
  | a :: as, bs => by
    cases bs <;> simp [projsBeq]
    rename_i b bs'
    intro h1 h2
    exact ⟨projBeq_eq a b h1, projsBeq_eq as bs' h2⟩

end

instance : DecidableEq Ty := fun a b =>
  if h : tyBeq a b = true then .isTrue (tyBeq_eq a b h)
  else .isFalse (fun e => h (e ▸ tyBeq_refl a))

instance : DecidableEq Ty := fun a b =>
  if h : tyBeq a b = true then .isTrue (tyBeq_eq a b h)
  else .isFalse (fun e => h (e ▸ tyBeq_refl a))

/-! ## Stream, context and result primitives -/

/-- Bytes of an ASCII string literal (the tags written by `write!`): one
byte per character, the character code. -/
def strBytes (s : String) : List Nat := s.data.map Char.toNat

/-- Decimal formatting, as `write!(w, "{0}", n)` on an unsigned integer. -/
def decBytes (n : Nat) : List Nat := strBytes (toString n)

/-- `rbml::leb128::write_unsigned_leb128` (external primitive): minimal
little-endian base-128 encoding, continuation bit on every byte but the
last. -/
def leb128 (n : Nat) : List Nat :=
  if _h : n < 128 then [n] else (n % 128 + 128) :: leb128 (n / 128)
termination_by n
decreasing_by exact Nat.div_lt_self (by omega) (by omega)

/-- Little-endian base-128 decoder, inverse of `leb128`. -/
def lebDecode : List Nat → Nat
  | [] => 0
  | b :: rest => b % 128 + 128 * lebDecode rest

/-- The candidate abbreviation token built by `enc_ty`: the tag byte `#`
(35) followed by the minimal LEB128 encoding of the span start. -/
def abbrevToken (pos : Nat) : List Nat := 35 :: leb128 pos

/-- The abbreviation cache `abbrev_map` = `FnvHashMap<Ty, ty_abbrev>`,
modelled as an association list whose later insertions shadow earlier
ones (as `HashMap::insert` overwrites). -/
def cacheLookup : List (Ty × List Nat) → Ty → Option (List Nat)
  | [], _ => none
  | (k, v) :: rest, t => if t = k then some v else cacheLookup rest t

/-- Session state: the output stream bytes (`Cursor<Vec<u8>>`, cursor at
the end, so `position()` is the length of `w`) and the abbreviation
cache. -/
structure EncSt where
  w : List Nat
  abbrevs : List (Ty × List Nat)

/-- Result of an encoder call: normal return, or a `bug!` abort carrying
the state at the moment of the abort (the process dies; we keep the state
so that "no partial output" facts can be stated). -/
inductive EncRes where
  | ok (s : EncSt)
  | err (msg : String) (s : EncSt)

def EncRes.bind (r : EncRes) (f : EncSt → EncRes) : EncRes :=
  match r with
  | .ok s => f s
  | .err m s => .err m s

/-- The state carried by a result, for either outcome. -/
def resSt : EncRes → EncSt
  | .ok s => s
  | .err _ s => s

/-- `w.write_all(bytes)` / one `write!` call: append at the cursor. -/
def wr (s : EncSt) (bs : List Nat) : EncSt := { s with w := s.w ++ bs }

/-- The encoding context `ctxt`: the def-id → path resolver `ds`
(returning the path's bytes, which the source guarantees contain no `|`)
and the scope resolver `tcx.region_maps.code_extent_data`.  The
diagnostic handler `diag` is the `EncRes.err` constructor itself. -/
structure Ctxt where
  ds : Nat → List Nat
  code_extent_data : Nat → CodeExtentData

/-! ## Non-recursive encoders -/

/-- `enc_mutability`: nothing for immutable, `m` for mutable. -/
def enc_mutability (s : EncSt) (mt : Mutability) : EncSt :=
  match mt with
  | .MutImmutable => s
  | .MutMutable => wr s (strBytes "m")

/-- `enc_opt`: `n` when absent, `s` then the payload when present. -/
def enc_opt {α : Type} (w : EncSt) (t : Option α) (enc_f : EncSt → α → EncRes) :
    EncRes :=
  match t with
  | none => .ok (wr w (strBytes "n"))
  | some v => enc_f (wr w (strBytes "s")) v

/-- `enc_scope`: resolve the opaque scope id and write the shape's tag and
integer payloads. -/
def enc_scope (cx : Ctxt) (s : EncSt) (scope : Nat) : EncSt :=
  match cx.code_extent_data scope with
  | .CallSiteScope fn_id body_id =>
    wr s (strBytes "C[" ++ decBytes fn_id ++ strBytes "|" ++ decBytes body_id
          ++ strBytes "]")
  | .ParameterScope fn_id body_id =>
    wr s (strBytes "P[" ++ decBytes fn_id ++ strBytes "|" ++ decBytes body_id
          ++ strBytes "]")
  | .Misc node_id => wr s (strBytes "M" ++ decBytes node_id)
  | .Remainder b i =>
    wr s (strBytes "B[" ++ decBytes b ++ strBytes "|" ++ decBytes i
          ++ strBytes "]")
  | .DestructionScope node_id => wr s (strBytes "D" ++ decBytes node_id)

/-- `enc_bound_region`. -/
def enc_bound_region (cx : Ctxt) (s : EncSt) (br : BoundRegion) : EncSt :=
  match br with
  | .BrAnon idx => wr s (strBytes "a" ++ decBytes idx ++ strBytes "|")
  | .BrNamed d name issue =>
    let s1 := wr s (strBytes "[" ++ cx.ds d ++ strBytes "|" ++ name
                    ++ strBytes "|")
    match issue with
    | .WontChange => wr s1 (strBytes "n]")
    | .WillChange fn_def_id region_name =>
      wr s1 (strBytes "y" ++ cx.ds fn_def_id ++ strBytes "|" ++ region_name
             ++ strBytes "]")
  | .BrFresh id => wr s (strBytes "f" ++ decBytes id ++ strBytes "|")
  | .BrEnv => wr s (strBytes "e|")

/-- `enc_region`: dispatch on the region variant; the two inference-only
variants `ReVar`/`ReSkolemized` hit `bug!` unconditionally, before any
byte of this call is written. -/
def enc_region (cx : Ctxt) (s : EncSt) (r : Region) : EncRes :=
  match r with
  | .ReLateBound depth br =>
    .ok (wr (enc_bound_region cx
            (wr s (strBytes "b[" ++ decBytes depth ++ strBytes "|")) br)
          (strBytes "]"))
  | .ReEarlyBound index name =>
    .ok (wr s (strBytes "B[" ++ decBytes index ++ strBytes "|" ++ name
               ++ strBytes "]"))
  | .ReFree scope br =>
    .ok (wr (enc_bound_region cx
            (wr (enc_scope cx (wr s (strBytes "f[")) scope) (strBytes "|")) br)
          (strBytes "]"))
  | .ReScope scope =>
    .ok (wr (enc_scope cx (wr s (strBytes "s")) scope) (strBytes "|"))
  | .ReStatic => .ok (wr s (strBytes "t"))
  | .ReEmpty => .ok (wr s (strBytes "e"))
  | .ReErased => .ok (wr s (strBytes "E"))
  | .ReVar _ => .err "cannot encode region variables" s
  | .ReSkolemized _ _ => .err "cannot encode region variables" s

/-- `enc_builtin_bounds`: one letter per present bound, iterated in the
declaration order Send, Sized, Copy, Sync, then the terminator `.`. -/
def enc_builtin_bounds (s : EncSt) (bs : BuiltinBounds) : EncSt :=
  let s1 := if bs.send then wr s (strBytes "S") else s
  let s2 := if bs.sized then wr s1 (strBytes "Z") else s1
  let s3 := if bs.copy then wr s2 (strBytes "P") else s2
  let s4 := if bs.sync then wr s3 (strBytes "T") else s3
  wr s4 (strBytes ".")

/-- `enc_unsafety`. -/
def enc_unsafety (s : EncSt) (p : Unsafety) : EncSt :=
  match p with
  | .Normal => wr s (strBytes "n")
  | .Unsafe_ => wr s (strBytes "u")

/-- `enc_abi`: the bracketed ABI name. -/
def enc_abi (s : EncSt) (abi : List Nat) : EncSt :=
  wr (wr (wr s (strBytes "[")) abi) (strBytes "]")

/-! ## The mutually recursive encoders

`enc_sty` is the `match t.sty { ... }` dispatch block of `enc_ty`; the
list helpers (`enc_tys`, `enc_params`, `enc_projs`) are the `for` loops
of the source, in order. -/

mutual

/-- `enc_ty`: on a cache hit replay the stored bytes and return; on a miss
record `pos`, dispatch, then insert into the cache either the candidate
abbreviation token (when strictly shorter than the span) or the verbatim
span bytes `w[pos..end]`. -/
def enc_ty (cx : Ctxt) (s : EncSt) (t : Ty) : EncRes :=
  match cacheLookup s.abbrevs t with
  | some a => .ok (wr s a)
  | none =>
    let pos := s.w.length
    (enc_sty cx s t).bind fun s1 =>
      let end_ := s1.w.length
      let len := end_ - pos
      let atok := abbrevToken pos
      .ok { s1 with
            abbrevs :=
              (t, if atok.length < len then atok
                  else (s1.w.drop pos).take (end_ - pos)) :: s1.abbrevs }
termination_by 3 * sizeOf t + 1
decreasing_by all_goals (simp_wf <;> omega)

/-- The variant dispatch of `enc_ty` (`match t.sty`): tag, then payload. -/
def enc_sty (cx : Ctxt) (s : EncSt) : Ty → EncRes
  | .TyBool => .ok (wr s (strBytes "b"))
  | .TyChar => .ok (wr s (strBytes "c"))
  | .TyNever => .ok (wr s (strBytes "!"))
  | .TyInt it =>
    .ok (wr s (strBytes (match it with
      | .Is => "is" | .I8 => "MB" | .I16 => "MW" | .I32 => "ML"
      | .I64 => "MD")))
  | .TyUint ut =>
    .ok (wr s (strBytes (match ut with
      | .Us => "us" | .U8 => "Mb" | .U16 => "Mw" | .U32 => "Ml"
      | .U64 => "Md")))
  | .TyFloat ft =>
    .ok (wr s (strBytes (match ft with | .F32 => "Mf" | .F64 => "MF")))
  | .TyTrait principal builtin_bounds region_bound projection_bounds =>
    (enc_existential_trait_ref cx (wr s (strBytes "x[")) principal).bind
      fun s1 =>
        (enc_region cx (enc_builtin_bounds s1 builtin_bounds)
            region_bound).bind fun s2 =>
          (enc_projs cx s2 projection_bounds).bind fun s3 =>
            .ok (wr (wr s3 (strBytes ".")) (strBytes "]"))
  | .TyTuple ts =>
    (enc_tys cx (wr s (strBytes "T[")) ts).bind fun s1 =>
      .ok (wr s1 (strBytes "]"))
  | .TyBox typ => enc_ty cx (wr s (strBytes "~")) typ
  | .TyRawPtr mutbl ty => enc_mt cx (wr s (strBytes "*")) mutbl ty
  | .TyRef r mutbl ty =>
    (enc_region cx (wr s (strBytes "&")) r).bind fun s1 =>
      enc_mt cx s1 mutbl ty
  | .TyArray t1 sz =>
    (enc_ty cx (wr s (strBytes "V")) t1).bind fun s1 =>
      .ok (wr s1 (strBytes "/" ++ decBytes sz ++ strBytes "|"))
  | .TySlice t1 =>
    (enc_ty cx (wr s (strBytes "V")) t1).bind fun s1 =>
      .ok (wr s1 (strBytes "/|"))
  | .TyStr => .ok (wr s (strBytes "v"))
  | .TyFnDef def_id substs f =>
    (enc_substs cx (wr s (strBytes "F" ++ cx.ds def_id ++ strBytes "|"))
        substs).bind fun s1 => enc_bare_fn_ty cx s1 f
  | .TyFnPtr f => enc_bare_fn_ty cx (wr s (strBytes "G")) f
  | .TyInfer _ => .err "cannot encode inference variable types" s
  | .TyParam idx name =>
    .ok (wr s (strBytes "p[" ++ decBytes idx ++ strBytes "|" ++ name
               ++ strBytes "]"))
  | .TyAdt did substs =>
    (enc_substs cx (wr s (strBytes "a[" ++ cx.ds did ++ strBytes "|"))
        substs).bind fun s1 => .ok (wr s1 (strBytes "]"))
  | .TyClosure d func_substs upvar_tys =>
    (enc_substs cx (wr s (strBytes "k[" ++ cx.ds d ++ strBytes "|"))
        func_substs).bind fun s1 =>
      (enc_tys cx s1 upvar_tys).bind fun s2 =>
        .ok (wr (wr s2 (strBytes ".")) (strBytes "]"))
  | .TyProjection trait_ref item_name =>
    (enc_trait_ref cx (wr s (strBytes "P[")) trait_ref).bind fun s1 =>
      .ok (wr s1 (item_name ++ strBytes "]"))
  | .TyAnon def_id substs =>
    (enc_substs cx (wr s (strBytes "A[" ++ cx.ds def_id ++ strBytes "|"))
        substs).bind fun s1 => .ok (wr s1 (strBytes "]"))
  | .TyError => .ok (wr s (strBytes "e"))
termination_by t => 3 * sizeOf t
decreasing_by all_goals (simp_wf <;> omega)

/-- The element loop of `TyTuple`/`TyClosure` upvars/`enc_fn_sig` inputs:
encode each type in order. -/
def enc_tys (cx : Ctxt) (s : EncSt) : List Ty → EncRes
  | [] => .ok s
  | t :: rest => (enc_ty cx s t).bind fun s1 => enc_tys cx s1 rest
termination_by ts => 3 * sizeOf ts
decreasing_by all_goals (simp_wf <;> omega)

/-- `enc_mt`: mutability marker then the pointee type. -/
def enc_mt (cx : Ctxt) (s : EncSt) (mutbl : Mutability) (ty : Ty) : EncRes :=
  enc_ty cx (enc_mutability s mutbl) ty
termination_by 3 * sizeOf ty + 2
decreasing_by all_goals (simp_wf <;> omega)

/-- `enc_substs`: bracketed sequence of tagged substitution elements. -/
def enc_substs (cx : Ctxt) (s : EncSt) (substs : List Kind) : EncRes :=
  (enc_params cx (wr s (strBytes "[")) substs).bind fun s1 =>
    .ok (wr s1 (strBytes "]"))
termination_by 3 * sizeOf substs + 2
decreasing_by all_goals (simp_wf <;> omega)

/-- The element loop of `enc_substs`: `t`+type or `r`+region per element,
`bug!()` on an unrecognized argument kind. -/
def enc_params (cx : Ctxt) (s : EncSt) : List Kind → EncRes
  | [] => .ok s
  | .asType ty :: rest =>
    (enc_ty cx (wr s (strBytes "t")) ty).bind fun s1 =>
      enc_params cx s1 rest
  | .asRegion r :: rest =>
    (enc_region cx (wr s (strBytes "r")) r).bind fun s1 =>
      enc_params cx s1 rest
  | .other :: _ => .err "" s
termination_by ks => 3 * sizeOf ks + 1
decreasing_by all_goals (simp_wf <;> omega)

/-- `enc_trait_ref`: resolved path, separator, substitutions. -/
def enc_trait_ref (cx : Ctxt) (s : EncSt) : TraitRef → EncRes
  | .mk def_id substs =>
    enc_substs cx (wr s (cx.ds def_id ++ strBytes "|")) substs
termination_by tr => 3 * sizeOf tr
decreasing_by all_goals (simp_wf <;> omega)

/-- `enc_existential_trait_ref`. -/
def enc_existential_trait_ref (cx : Ctxt) (s : EncSt) :
    ExistentialTraitRef → EncRes
  | .mk def_id substs =>
    enc_substs cx (wr s (cx.ds def_id ++ strBytes "|")) substs
termination_by tr => 3 * sizeOf tr
decreasing_by all_goals (simp_wf <;> omega)

/-- The projection-bound loop of `TyTrait`: `P` then the projection. -/
def enc_projs (cx : Ctxt) (s : EncSt) : List ExistentialProjection → EncRes
  | [] => .ok s
  | p :: rest =>
    (enc_existential_projection cx (wr s (strBytes "P")) p).bind fun s1 =>
      enc_projs cx s1 rest
termination_by ps => 3 * sizeOf ps
decreasing_by all_goals (simp_wf <;> omega)

/-- `enc_existential_projection`. -/
def enc_existential_projection (cx : Ctxt) (s : EncSt) :
    ExistentialProjection → EncRes
  | .mk trait_ref item_name ty =>
    (enc_existential_trait_ref cx s trait_ref).bind fun s1 =>
      enc_ty cx (wr s1 (item_name ++ strBytes "|")) ty
termination_by p => 3 * sizeOf p
decreasing_by all_goals (simp_wf <;> omega)

/-- `enc_bare_fn_ty`: unsafety, bracketed ABI, signature. -/
def enc_bare_fn_ty (cx : Ctxt) (s : EncSt) : BareFnTy → EncRes
  | .mk unsafety abi sig =>
    enc_fn_sig cx (enc_abi (enc_unsafety s unsafety) abi) sig
termination_by ft => 3 * sizeOf ft
decreasing_by all_goals (simp_wf <;> omega)

/-- `enc_fn_sig`: bracketed inputs, variadic flag `V`/`N`, output type. -/
def enc_fn_sig (cx : Ctxt) (s : EncSt) : FnSig → EncRes
  | .mk inputs output variadic =>
    (enc_tys cx (wr s (strBytes "[")) inputs).bind fun s1 =>
      enc_ty cx
        (wr (wr s1 (strBytes "]"))
          (strBytes (if variadic then "V" else "N"))) output
termination_by fsig => 3 * sizeOf fsig
decreasing_by all_goals (simp_wf <;> omega)

end

/-! ## Encoders layered on top of the mutual block -/

/-- `ty::RegionParameterDef`. -/
structure RegionParameterDef where
  name : List Nat
  def_id : Nat
  index : Nat
  bounds : List Region

/-- `ty::TypeParameterDef`. -/
structure TypeParameterDef where
  name : List Nat
  def_id : Nat
  index : Nat
  default_def_id : Nat
  default : Option Ty
  object_lifetime_default : ObjectLifetimeDefault

/-- `ty::Generics`. -/
structure Generics where
  parent : Option Nat
  parent_regions : Nat
  parent_types : Nat
  regions : List RegionParameterDef
  types : List TypeParameterDef
  has_self : Bool

/-- `ty::ClosureTy`: unsafety, ABI, signature. -/
structure ClosureTy where
  unsafety : Unsafety
  abi : List Nat
  sig : FnSig

/-- `enc_object_lifetime_default`. -/
def enc_object_lifetime_default (cx : Ctxt) (s : EncSt)
    (default : ObjectLifetimeDefault) : EncRes :=
  match default with
  | .Ambiguous => .ok (wr s (strBytes "a"))
  | .BaseDefault => .ok (wr s (strBytes "b"))
  | .Specific r => enc_region cx (wr s (strBytes "s")) r

/-- `enc_type_param_def`: header fields, the optional default type via
`enc_opt`, then the object-lifetime default. -/
def enc_type_param_def (cx : Ctxt) (s : EncSt) (v : TypeParameterDef) :
    EncRes :=
  (enc_opt
      (wr s (v.name ++ strBytes ":" ++ cx.ds v.def_id ++ strBytes "|"
             ++ decBytes v.index ++ strBytes "|" ++ cx.ds v.default_def_id
             ++ strBytes "|"))
      v.default (fun w t => enc_ty cx w t)).bind fun s1 =>
    enc_object_lifetime_default cx s1 v.object_lifetime_default

/-- The bound-region loop of `enc_region_param_def`. -/
def enc_rpd_bounds (cx : Ctxt) (s : EncSt) (rs : List Region) : EncRes :=
  match rs with
  | [] => .ok s
  | r :: rest =>
    (enc_region cx (wr s (strBytes "R")) r).bind fun s1 =>
      enc_rpd_bounds cx s1 rest

/-- `enc_region_param_def`. -/
def enc_region_param_def (cx : Ctxt) (s : EncSt) (v : RegionParameterDef) :
    EncRes :=
  (enc_rpd_bounds cx
      (wr s (v.name ++ strBytes ":" ++ cx.ds v.def_id ++ strBytes "|"
             ++ decBytes v.index ++ strBytes "|"))
      v.bounds).bind fun s1 => .ok (wr s1 (strBytes "."))

/-- The region-parameter loop of `enc_generics`. -/
def enc_rpds (cx : Ctxt) (s : EncSt) (rs : List RegionParameterDef) : EncRes :=
  match rs with
  | [] => .ok s
  | r :: rest =>
    (enc_region_param_def cx s r).bind fun s1 => enc_rpds cx s1 rest

/-- The type-parameter loop of `enc_generics`. -/
def enc_tpds (cx : Ctxt) (s : EncSt) (ts : List TypeParameterDef) : EncRes :=
  match ts with
  | [] => .ok s
  | t :: rest =>
    (enc_type_param_def cx s t).bind fun s1 => enc_tpds cx s1 rest

/-- `enc_generics`: optional parent path via `enc_opt`, parent counts,
bracketed region-param defs, separator, type-param defs, closing bracket,
self flag. -/
def enc_generics (cx : Ctxt) (s : EncSt) (generics : Generics) : EncRes :=
  (enc_opt s generics.parent
      (fun w def_id => .ok (wr w (cx.ds def_id ++ strBytes "|")))).bind
    fun s1 =>
      let s2 := wr s1 (decBytes generics.parent_regions ++ strBytes "|"
                       ++ decBytes generics.parent_types ++ strBytes "[")
      (enc_rpds cx s2 generics.regions).bind fun s3 =>
        (enc_tpds cx (wr s3 (strBytes "|")) generics.types).bind fun s4 =>
          .ok (wr (wr s4 (strBytes "]"))
                (strBytes (if generics.has_self then "S" else "N")))

/-- `enc_closure_ty`: unsafety, signature, then ABI — a different field
order from `enc_bare_fn_ty`. -/
def enc_closure_ty (cx : Ctxt) (s : EncSt) (ft : ClosureTy) : EncRes :=
  (enc_fn_sig cx (enc_unsafety s ft.unsafety) ft.sig).bind fun s1 =>
    .ok (enc_abi s1 ft.abi)

/-- `ty::ClosureKind`. -/
inductive ClosureKind where
  | Fn | FnMut | FnOnce
deriving DecidableEq, Repr

/-- `ty::Predicate`. -/
inductive Predicate where
  | Trait (trait_ref : TraitRef)
  | Equate (a b : Ty)
  | RegionOutlives (a b : Region)
  | TypeOutlives (a : Ty) (b : Region)
  | Projection (trait_ref : TraitRef) (item_name : List Nat) (ty : Ty)
  | WellFormed (data : Ty)
  | ObjectSafe (trait_def_id : Nat)
  | ClosureKindPred (closure_def_id : Nat) (kind : ClosureKind)

/-- `enc_predicate`. -/
def enc_predicate (cx : Ctxt) (s : EncSt) (p : Predicate) : EncRes :=
  match p with
  | .Trait trait_ref => enc_trait_ref cx (wr s (strBytes "t")) trait_ref
  | .Equate a b =>
    (enc_ty cx (wr s (strBytes "e")) a).bind fun s1 => enc_ty cx s1 b
  | .RegionOutlives a b =>
    (enc_region cx (wr s (strBytes "r")) a).bind fun s1 =>
      enc_region cx s1 b
  | .TypeOutlives a b =>
    (enc_ty cx (wr s (strBytes "o")) a).bind fun s1 => enc_region cx s1 b
  | .Projection trait_ref item_name ty =>
    (enc_trait_ref cx (wr s (strBytes "p")) trait_ref).bind fun s1 =>
      enc_ty cx (wr s1 (item_name ++ strBytes "|")) ty
  | .WellFormed data => enc_ty cx (wr s (strBytes "w")) data
  | .ObjectSafe trait_def_id =>
    .ok (wr s (strBytes "O" ++ cx.ds trait_def_id ++ strBytes "|"))
  | .ClosureKindPred closure_def_id kind =>
    .ok (wr s (strBytes "c" ++ cx.ds closure_def_id ++ strBytes "|"
               ++ strBytes (match kind with
                  | .Fn => "f" | .FnMut => "m" | .FnOnce => "o")
               ++ strBytes "|"))

/-! ## Stream/cache monotonicity

Every encoder only appends to the stream, and never removes or overwrites
an abbreviation-cache entry that is present when it starts. -/

/-- Cache evolution: every key either keeps its value or was absent. -/
def cacheExt (c c' : List (Ty × List Nat)) : Prop :=
  ∀ k, cacheLookup c' k = cacheLookup c k ∨ cacheLookup c k = none

/-- Postcondition of every encoder call: the stream got a suffix appended
and the cache only gained entries (for either outcome of the call). -/
def Post (s : EncSt) (r : EncRes) : Prop :=
  (∃ d, (resSt r).w = s.w ++ d) ∧ cacheExt s.abbrevs (resSt r).abbrevs

theorem cacheExt_refl (c : List (Ty × List Nat)) : cacheExt c c :=
  fun _ => .inl rfl

theorem cacheExt_trans {a b c : List (Ty × List Nat)}
    (h1 : cacheExt a b) (h2 : cacheExt b c) : cacheExt a c := by
  intro k
  rcases h2 k with h | h
  · rcases h1 k with h' | h'
    · exact .inl (h.trans h')
    · exact .inr h'
  · rcases h1 k with h' | h'
    · exact .inr (h' ▸ h)
    · exact .inr h'

theorem cacheExt_keep {a b : List (Ty × List Nat)} (h : cacheExt a b)
    {k : Ty} {e : List Nat} (he : cacheLookup a k = some e) :
    cacheLookup b k = some e := by
  rcases h k with h' | h'
  · exact h'.trans he
  · exact absurd (h' ▸ he) (by simp)

theorem cacheLookup_cons (k0 : Ty) (v : List Nat)
    (c : List (Ty × List Nat)) (k : Ty) :
    cacheLookup ((k0, v) :: c) k = if k = k0 then some v else cacheLookup c k :=
  rfl

theorem post_ok (s : EncSt) : Post s (.ok s) :=
  ⟨⟨[], by simp [resSt]⟩, cacheExt_refl _⟩

theorem wr_w (s : EncSt) (bs : List Nat) : (wr s bs).w = s.w ++ bs := rfl

theorem wr_abbrevs (s : EncSt) (bs : List Nat) :
    (wr s bs).abbrevs = s.abbrevs := rfl

theorem post_wr (s : EncSt) (bs : List Nat) : Post s (.ok (wr s bs)) :=
  ⟨⟨bs, rfl⟩, cacheExt_refl _⟩

theorem wr_wr (s : EncSt) (a b : List Nat) : wr (wr s a) b = wr s (a ++ b) := by
  simp [wr]

/-- Prefix/cache postconditions compose across an intermediate state. -/
theorem post_comp {s s1 : EncSt} {r : EncRes}
    (h1 : (∃ d, s1.w = s.w ++ d) ∧ cacheExt s.abbrevs s1.abbrevs)
    (h2 : Post s1 r) : Post s r := by
  obtain ⟨⟨d1, hw1⟩, hc1⟩ := h1
  obtain ⟨⟨d2, hw2⟩, hc2⟩ := h2
  exact ⟨⟨d1 ++ d2, by rw [hw2, hw1, List.append_assoc]⟩,
    cacheExt_trans hc1 hc2⟩

/-- A `Post` for a pure-state step (a `wr`, or several of them). -/
theorem post_comp_wr {s s1 : EncSt} {r : EncRes} (d1 : List Nat)
    (hw : s1.w = s.w ++ d1) (hc : s1.abbrevs = s.abbrevs)
    (h2 : Post s1 r) : Post s r :=
  post_comp ⟨⟨d1, hw⟩, hc ▸ cacheExt_refl _⟩ h2

theorem post_bind {s : EncSt} {r : EncRes} {f : EncSt → EncRes}
    (h1 : Post s r) (h2 : ∀ s', r = .ok s' → Post s' (f s')) :
    Post s (r.bind f) := by
  cases r with
  | ok s' => exact post_comp h1 (h2 s' rfl)
  | err m s' => exact h1

/-! Pure-state helpers append to the stream and do not touch the cache. -/

theorem enc_mutability_spec (s : EncSt) (mt : Mutability) :
    ∃ d, enc_mutability s mt = wr s d := by
  cases mt
  · exact ⟨[], by simp [enc_mutability, wr]⟩
  · exact ⟨strBytes "m", rfl⟩

theorem enc_scope_spec (cx : Ctxt) (s : EncSt) (scope : Nat) :
    ∃ d, enc_scope cx s scope = wr s d := by
  unfold enc_scope
  cases cx.code_extent_data scope <;> exact ⟨_, rfl⟩

theorem enc_bound_region_spec (cx : Ctxt) (s : EncSt) (br : BoundRegion) :
    ∃ d, enc_bound_region cx s br = wr s d := by
  cases br with
  | BrNamed d name issue =>
    cases issue <;> (simp only [enc_bound_region, wr_wr]; exact ⟨_, rfl⟩)
  | _ => simp only [enc_bound_region]; exact ⟨_, rfl⟩

theorem enc_builtin_bounds_spec (s : EncSt) (bs : BuiltinBounds) :
    ∃ d, enc_builtin_bounds s bs = wr s d := by
  obtain ⟨send, sized, copy, sync⟩ := bs
  cases send <;> cases sized <;> cases copy <;> cases sync <;>
    (simp only [enc_builtin_bounds, wr_wr, Bool.false_eq_true, if_true,
      if_false]; exact ⟨_, rfl⟩)

theorem enc_unsafety_spec (s : EncSt) (p : Unsafety) :
    ∃ d, enc_unsafety s p = wr s d := by
  cases p <;> exact ⟨_, rfl⟩

theorem enc_abi_spec (s : EncSt) (abi : List Nat) :
    ∃ d, enc_abi s abi = wr s d :=
  ⟨strBytes "[" ++ abi ++ strBytes "]", by simp [enc_abi, wr, List.append_assoc]⟩

/-- `enc_region` also appends a single suffix (and never touches the
cache): on success it is a pure write, on abort the state is unchanged. -/
theorem enc_region_spec (cx : Ctxt) (s : EncSt) (r : Region) :
    (∃ d, enc_region cx s r = .ok (wr s d)) ∨ ∃ m, enc_region cx s r = .err m s := by
  cases r with
  | ReLateBound depth br =>
    obtain ⟨d, hd⟩ := enc_bound_region_spec cx
      (wr s (strBytes "b[" ++ decBytes depth ++ strBytes "|")) br
    refine .inl ?_
    simp only [enc_region, hd, wr_wr]
    exact ⟨_, rfl⟩
  | ReEarlyBound index name =>
    refine .inl ?_; simp only [enc_region]; exact ⟨_, rfl⟩
  | ReFree scope br =>
    obtain ⟨d1, hd1⟩ := enc_scope_spec cx (wr s (strBytes "f[")) scope
    obtain ⟨d2, hd2⟩ := enc_bound_region_spec cx
      (wr (enc_scope cx (wr s (strBytes "f[")) scope) (strBytes "|")) br
    refine .inl ?_
    simp only [enc_region, hd2]
    simp only [hd1, wr_wr]
    exact ⟨_, rfl⟩
  | ReScope scope =>
    obtain ⟨d1, hd1⟩ := enc_scope_spec cx (wr s (strBytes "s")) scope
    refine .inl ?_
    simp only [enc_region, hd1, wr_wr]
    exact ⟨_, rfl⟩
  | ReStatic => refine .inl ?_; simp only [enc_region]; exact ⟨_, rfl⟩
  | ReEmpty => refine .inl ?_; simp only [enc_region]; exact ⟨_, rfl⟩
  | ReErased => refine .inl ?_; simp only [enc_region]; exact ⟨_, rfl⟩
  | ReVar vid => refine .inr ?_; simp only [enc_region]; exact ⟨_, rfl⟩
  | ReSkolemized id br => refine .inr ?_; simp only [enc_region]; exact ⟨_, rfl⟩

theorem enc_region_post (cx : Ctxt) (s : EncSt) (r : Region) :
    Post s (enc_region cx s r) := by
  rcases enc_region_spec cx s r with ⟨d, hd⟩ | ⟨m, hm⟩
  · rw [hd]; exact post_wr ..
  · rw [hm]; exact ⟨⟨[], by simp [resSt]⟩, cacheExt_refl _⟩

theorem post_err (s : EncSt) (m : String) : Post s (.err m s) :=
  ⟨⟨[], by simp [resSt]⟩, cacheExt_refl _⟩

/-- Precompose a `Post` with a pure-state write step. -/
theorem post_of_st {s s1 : EncSt} (h : ∃ d, s1 = wr s d) {r : EncRes}
    (h2 : Post s1 r) : Post s r := by
  obtain ⟨d, rfl⟩ := h
  exact @post_comp_wr s (wr s d) _ d rfl rfl h2

theorem post_ok_st {s s1 : EncSt} (h : ∃ d, s1 = wr s d) : Post s (.ok s1) := by
  obtain ⟨d, rfl⟩ := h
  exact post_wr ..

/-- Precompose a `Post` with one explicit `wr`. -/
theorem post_of_wr {s : EncSt} (bs : List Nat) {r : EncRes}
    (h2 : Post (wr s bs) r) : Post s r :=
  post_of_st ⟨bs, rfl⟩ h2

mutual

theorem enc_ty_post (cx : Ctxt) (s : EncSt) (t : Ty) : Post s (enc_ty cx s t) := by
  rw [enc_ty]
  split
  · exact post_wr ..
  · rename_i hmiss
    have hsty := enc_sty_post cx s t
    cases hr : enc_sty cx s t with
    | err m s1 =>
      rw [hr] at hsty
      simpa only [EncRes.bind] using hsty
    | ok s1 =>
      rw [hr] at hsty
      obtain ⟨⟨d, hd⟩, hc⟩ := hsty
      simp only [resSt] at hd hc
      simp only [EncRes.bind]
      refine ⟨⟨d, hd⟩, ?_⟩
      intro k
      simp only [resSt]
      rw [cacheLookup_cons]
      by_cases hk : k = t
      · rw [if_pos hk, hk]
        exact .inr hmiss
      · rw [if_neg hk]
        exact hc k
termination_by 3 * sizeOf t + 1
decreasing_by all_goals (simp_wf <;> omega)

theorem enc_sty_post (cx : Ctxt) (s : EncSt) (t : Ty) : Post s (enc_sty cx s t) := by
  cases t with
  | TyBool => simp only [enc_sty]; exact post_wr ..
  | TyChar => simp only [enc_sty]; exact post_wr ..
  | TyNever => simp only [enc_sty]; exact post_wr ..
  | TyStr => simp only [enc_sty]; exact post_wr ..
  | TyError => simp only [enc_sty]; exact post_wr ..
  | TyInt it => cases it <;> (simp only [enc_sty]; exact post_wr ..)
  | TyUint ut => cases ut <;> (simp only [enc_sty]; exact post_wr ..)
  | TyFloat ft => cases ft <;> (simp only [enc_sty]; exact post_wr ..)
  | TyTrait principal builtin_bounds region_bound projection_bounds =>
    simp only [enc_sty]
    apply post_of_wr
    refine post_bind (enc_existential_trait_ref_post cx _ principal) ?_
    intro s1 _
    refine post_of_st (enc_builtin_bounds_spec s1 builtin_bounds) ?_
    refine post_bind (enc_region_post cx _ region_bound) ?_
    intro s2 _
    refine post_bind (enc_projs_post cx s2 projection_bounds) ?_
    intro s3 _
    apply post_of_wr
    exact post_wr ..
  | TyTuple ts =>
    simp only [enc_sty]
    apply post_of_wr
    refine post_bind (enc_tys_post cx _ ts) ?_
    intro s1 _
    exact post_wr ..
  | TyBox typ =>
    simp only [enc_sty]
    apply post_of_wr
    exact enc_ty_post cx _ typ
  | TyRawPtr mutbl ty =>
    simp only [enc_sty]
    apply post_of_wr
    exact enc_mt_post cx _ mutbl ty
  | TyRef r mutbl ty =>
    simp only [enc_sty]
    apply post_of_wr
    refine post_bind (enc_region_post cx _ r) ?_
    intro s1 _
    exact enc_mt_post cx s1 mutbl ty
  | TyArray t1 sz =>
    simp only [enc_sty]
    apply post_of_wr
    refine post_bind (enc_ty_post cx _ t1) ?_
    intro s1 _
    exact post_wr ..
  | TySlice t1 =>
    simp only [enc_sty]
    apply post_of_wr
    refine post_bind (enc_ty_post cx _ t1) ?_
    intro s1 _
    exact post_wr ..
  | TyFnDef def_id substs f =>
    simp only [enc_sty]
    apply post_of_wr
    refine post_bind (enc_substs_post cx _ substs) ?_
    intro s1 _
    exact enc_bare_fn_ty_post cx s1 f
  | TyFnPtr f =>
    simp only [enc_sty]
    apply post_of_wr
    exact enc_bare_fn_ty_post cx _ f
  | TyInfer v => simp only [enc_sty]; exact post_err ..
  | TyParam idx name => simp only [enc_sty]; exact post_wr ..
  | TyAdt did substs =>
    simp only [enc_sty]
    apply post_of_wr
    refine post_bind (enc_substs_post cx _ substs) ?_
    intro s1 _
    exact post_wr ..
  | TyClosure d func_substs upvar_tys =>
    simp only [enc_sty]
    apply post_of_wr
    refine post_bind (enc_substs_post cx _ func_substs) ?_
    intro s1 _
    refine post_bind (enc_tys_post cx s1 upvar_tys) ?_
    intro s2 _
    apply post_of_wr
    exact post_wr ..
  | TyProjection trait_ref item_name =>
    simp only [enc_sty]
    apply post_of_wr
    refine post_bind (enc_trait_ref_post cx _ trait_ref) ?_
    intro s1 _
    exact post_wr ..
  | TyAnon def_id substs =>
    simp only [enc_sty]
    apply post_of_wr
    refine post_bind (enc_substs_post cx _ substs) ?_
    intro s1 _
    exact post_wr ..
termination_by 3 * sizeOf t
decreasing_by all_goals (simp_wf <;> omega)

theorem enc_tys_post (cx : Ctxt) (s : EncSt) (ts : List Ty) :
    Post s (enc_tys cx s ts) := by
  cases ts with
  | nil => simp only [enc_tys]; exact post_ok s
  | cons t rest =>
    simp only [enc_tys]
    refine post_bind (enc_ty_post cx s t) ?_
    intro s1 _
    exact enc_tys_post cx s1 rest
termination_by 3 * sizeOf ts
decreasing_by all_goals (simp_wf <;> omega)

theorem enc_mt_post (cx : Ctxt) (s : EncSt) (mutbl : Mutability) (ty : Ty) :
    Post s (enc_mt cx s mutbl ty) := by
  rw [enc_mt]
  exact post_of_st (enc_mutability_spec s mutbl) (enc_ty_post cx _ ty)
termination_by 3 * sizeOf ty + 2
decreasing_by all_goals (simp_wf <;> omega)

theorem enc_substs_post (cx : Ctxt) (s : EncSt) (substs : List Kind) :
    Post s (enc_substs cx s substs) := by
  rw [enc_substs]
  apply post_of_wr
  refine post_bind (enc_params_post cx _ substs) ?_
  intro s1 _
  exact post_wr ..
termination_by 3 * sizeOf substs + 2
decreasing_by all_goals (simp_wf <;> omega)

theorem enc_params_post (cx : Ctxt) (s : EncSt) (ks : List Kind) :
    Post s (enc_params cx s ks) := by
  cases ks with
  | nil => simp only [enc_params]; exact post_ok s
  | cons k rest =>
    cases k with
    | asType ty =>
      simp only [enc_params]
      apply post_of_wr
      refine post_bind (enc_ty_post cx _ ty) ?_
      intro s1 _
      exact enc_params_post cx s1 rest
    | asRegion r =>
      simp only [enc_params]
      apply post_of_wr
      refine post_bind (enc_region_post cx _ r) ?_
      intro s1 _
      exact enc_params_post cx s1 rest
    | other => simp only [enc_params]; exact post_err ..
termination_by 3 * sizeOf ks + 1
decreasing_by all_goals (simp_wf <;> omega)

theorem enc_trait_ref_post (cx : Ctxt) (s : EncSt) (tr : TraitRef) :
    Post s (enc_trait_ref cx s tr) := by
  cases tr with
  | mk def_id substs =>
    simp only [enc_trait_ref]
    apply post_of_wr
    exact enc_substs_post cx _ substs
termination_by 3 * sizeOf tr
decreasing_by all_goals (simp_wf <;> omega)

theorem enc_existential_trait_ref_post (cx : Ctxt) (s : EncSt)
    (tr : ExistentialTraitRef) : Post s (enc_existential_trait_ref cx s tr) := by
  cases tr with
  | mk def_id substs =>
    simp only [enc_existential_trait_ref]
    apply post_of_wr
    exact enc_substs_post cx _ substs
termination_by 3 * sizeOf tr
decreasing_by all_goals (simp_wf <;> omega)

theorem enc_projs_post (cx : Ctxt) (s : EncSt) (ps : List ExistentialProjection) :
    Post s (enc_projs cx s ps) := by
  cases ps with
  | nil => simp only [enc_projs]; exact post_ok s
  | cons p rest =>
    simp only [enc_projs]
    apply post_of_wr
    refine post_bind (enc_existential_projection_post cx _ p) ?_
    intro s1 _
    exact enc_projs_post cx s1 rest
termination_by 3 * sizeOf ps
decreasing_by all_goals (simp_wf <;> omega)

theorem enc_existential_projection_post (cx : Ctxt) (s : EncSt)
    (p : ExistentialProjection) : Post s (enc_existential_projection cx s p) := by
  cases p with
  | mk trait_ref item_name ty =>
    simp only [enc_existential_projection]
    refine post_bind (enc_existential_trait_ref_post cx s trait_ref) ?_
    intro s1 _
    apply post_of_wr
    exact enc_ty_post cx _ ty
termination_by 3 * sizeOf p
decreasing_by all_goals (simp_wf <;> omega)

theorem enc_bare_fn_ty_post (cx : Ctxt) (s : EncSt) (ft : BareFnTy) :
    Post s (enc_bare_fn_ty cx s ft) := by
  cases ft with
  | mk unsafety abi sig =>
    simp only [enc_bare_fn_ty]
    refine post_of_st (enc_unsafety_spec s unsafety) ?_
    refine post_of_st (enc_abi_spec _ abi) ?_
    exact enc_fn_sig_post cx _ sig
termination_by 3 * sizeOf ft
decreasing_by all_goals (simp_wf <;> omega)

theorem enc_fn_sig_post (cx : Ctxt) (s : EncSt) (fsig : FnSig) :
    Post s (enc_fn_sig cx s fsig) := by
  cases fsig with
  | mk inputs output variadic =>
    simp only [enc_fn_sig]
    apply post_of_wr
    refine post_bind (enc_tys_post cx _ inputs) ?_
    intro s1 _
    apply post_of_wr
    apply post_of_wr
    exact enc_ty_post cx _ output
termination_by 3 * sizeOf fsig
decreasing_by all_goals (simp_wf <;> omega)

end

/-! Postconditions for the encoders layered on top of the mutual block. -/

theorem enc_opt_post {α : Type} (w : EncSt) (t : Option α)
    (enc_f : EncSt → α → EncRes)
    (hf : ∀ s v, Post s (enc_f s v)) : Post w (enc_opt w t enc_f) := by
  cases t with
  | none => exact post_wr ..
  | some v =>
    rw [enc_opt]
    exact post_of_wr _ (hf _ v)

theorem enc_object_lifetime_default_post (cx : Ctxt) (s : EncSt)
    (default : ObjectLifetimeDefault) :
    Post s (enc_object_lifetime_default cx s default) := by
  cases default with
  | Ambiguous => exact post_wr ..
  | BaseDefault => exact post_wr ..
  | Specific r =>
    rw [enc_object_lifetime_default]
    exact post_of_wr _ (enc_region_post cx _ r)

theorem enc_type_param_def_post (cx : Ctxt) (s : EncSt)
    (v : TypeParameterDef) : Post s (enc_type_param_def cx s v) := by
  rw [enc_type_param_def]
  refine post_bind ?_ ?_
  · apply post_of_wr
    exact enc_opt_post _ v.default _ (fun s t => enc_ty_post cx s t)
  · intro s1 _
    exact enc_object_lifetime_default_post cx s1 _

theorem enc_rpd_bounds_post (cx : Ctxt) (s : EncSt) (rs : List Region) :
    Post s (enc_rpd_bounds cx s rs) := by
  induction rs generalizing s with
  | nil => exact post_ok s
  | cons r rest ih =>
    rw [enc_rpd_bounds]
    apply post_of_wr
    refine post_bind (enc_region_post cx _ r) ?_
    intro s1 _
    exact ih s1

theorem enc_region_param_def_post (cx : Ctxt) (s : EncSt)
    (v : RegionParameterDef) : Post s (enc_region_param_def cx s v) := by
  rw [enc_region_param_def]
  refine post_bind ?_ ?_
  · exact post_of_st ⟨_, rfl⟩ (enc_rpd_bounds_post cx _ v.bounds)
  · intro s1 _
    exact post_wr ..

theorem enc_rpds_post (cx : Ctxt) (s : EncSt) (rs : List RegionParameterDef) :
    Post s (enc_rpds cx s rs) := by
  induction rs generalizing s with
  | nil => exact post_ok s
  | cons r rest ih =>
    rw [enc_rpds]
    refine post_bind (enc_region_param_def_post cx s r) ?_
    intro s1 _
    exact ih s1

theorem enc_tpds_post (cx : Ctxt) (s : EncSt) (ts : List TypeParameterDef) :
    Post s (enc_tpds cx s ts) := by
  induction ts generalizing s with
  | nil => exact post_ok s
  | cons t rest ih =>
    rw [enc_tpds]
    refine post_bind (enc_type_param_def_post cx s t) ?_
    intro s1 _
    exact ih s1

theorem enc_generics_post (cx : Ctxt) (s : EncSt) (generics : Generics) :
    Post s (enc_generics cx s generics) := by
  rw [enc_generics]
  refine post_bind ?_ ?_
  · exact enc_opt_post _ generics.parent _ (fun s d => post_wr ..)
  · intro s1 _
    apply post_of_wr
    refine post_bind (enc_rpds_post cx _ generics.regions) ?_
    intro s3 _
    apply post_of_wr
    refine post_bind (enc_tpds_post cx _ generics.types) ?_
    intro s4 _
    apply post_of_wr
    exact post_wr ..

theorem enc_closure_ty_post (cx : Ctxt) (s : EncSt) (ft : ClosureTy) :
    Post s (enc_closure_ty cx s ft) := by
  rw [enc_closure_ty]
  refine post_bind ?_ ?_
  · exact post_of_st (enc_unsafety_spec s ft.unsafety) (enc_fn_sig_post cx _ ft.sig)
  · intro s1 _
    exact post_ok_st (enc_abi_spec s1 ft.abi)

theorem enc_predicate_post (cx : Ctxt) (s : EncSt) (p : Predicate) :
    Post s (enc_predicate cx s p) := by
  cases p with
  | Trait trait_ref =>
    rw [enc_predicate]
    exact post_of_wr _ (enc_trait_ref_post cx _ trait_ref)
  | Equate a b =>
    rw [enc_predicate]
    apply post_of_wr
    refine post_bind (enc_ty_post cx _ a) ?_
    intro s1 _
    exact enc_ty_post cx s1 b
  | RegionOutlives a b =>
    rw [enc_predicate]
    apply post_of_wr
    refine post_bind (enc_region_post cx _ a) ?_
    intro s1 _
    exact enc_region_post cx s1 b
  | TypeOutlives a b =>
    rw [enc_predicate]
    apply post_of_wr
    refine post_bind (enc_ty_post cx _ a) ?_
    intro s1 _
    exact enc_region_post cx s1 b
  | Projection trait_ref item_name ty =>
    rw [enc_predicate]
    apply post_of_wr
    refine post_bind (enc_trait_ref_post cx _ trait_ref) ?_
    intro s1 _
    exact post_of_wr _ (enc_ty_post cx _ ty)
  | WellFormed data =>
    rw [enc_predicate]
    exact post_of_wr _ (enc_ty_post cx _ data)
  | ObjectSafe trait_def_id => exact post_wr ..
  | ClosureKindPred closure_def_id kind => exact post_wr ..

/-! ## Session steps

One step is one call, through the public interface of the module, that
returned normally; `Reach` is any number of such calls.  This is what
"later in the same session/stream" means. -/

inductive Step (cx : Ctxt) : EncSt → EncSt → Prop where
  | ty {s s' : EncSt} (t : Ty) : enc_ty cx s t = .ok s' → Step cx s s'
  | substs {s s' : EncSt} (ks : List Kind) :
      enc_substs cx s ks = .ok s' → Step cx s s'
  | generics {s s' : EncSt} (g : Generics) :
      enc_generics cx s g = .ok s' → Step cx s s'
  | region {s s' : EncSt} (r : Region) :
      enc_region cx s r = .ok s' → Step cx s s'
  | trait_ref {s s' : EncSt} (tr : TraitRef) :
      enc_trait_ref cx s tr = .ok s' → Step cx s s'
  | bare_fn_ty {s s' : EncSt} (ft : BareFnTy) :
      enc_bare_fn_ty cx s ft = .ok s' → Step cx s s'
  | closure_ty {s s' : EncSt} (ft : ClosureTy) :
      enc_closure_ty cx s ft = .ok s' → Step cx s s'
  | predicate {s s' : EncSt} (p : Predicate) :
      enc_predicate cx s p = .ok s' → Step cx s s'

/-- Zero or more public encoder calls. -/
inductive Reach (cx : Ctxt) : EncSt → EncSt → Prop where
  | refl (s : EncSt) : Reach cx s s
  | tail {s s1 s2 : EncSt} : Reach cx s s1 → Step cx s1 s2 → Reach cx s s2

theorem Step_post {cx : Ctxt} {s s' : EncSt} (h : Step cx s s') :
    (∃ d, s'.w = s.w ++ d) ∧ cacheExt s.abbrevs s'.abbrevs := by
  cases h with
  | ty t h => have := enc_ty_post cx s t; rw [h] at this; exact this
  | substs ks h => have := enc_substs_post cx s ks; rw [h] at this; exact this
  | generics g h => have := enc_generics_post cx s g; rw [h] at this; exact this
  | region r h => have := enc_region_post cx s r; rw [h] at this; exact this
  | trait_ref tr h =>
    have := enc_trait_ref_post cx s tr; rw [h] at this; exact this
  | bare_fn_ty ft h =>
    have := enc_bare_fn_ty_post cx s ft; rw [h] at this; exact this
  | closure_ty ft h =>
    have := enc_closure_ty_post cx s ft; rw [h] at this; exact this
  | predicate p h =>
    have := enc_predicate_post cx s p; rw [h] at this; exact this

/-- Along any sequence of later calls the stream only grows and cache
entries are never modified or dropped. -/
theorem Reach_post {cx : Ctxt} {s s' : EncSt} (h : Reach cx s s') :
    (∃ d, s'.w = s.w ++ d) ∧ cacheExt s.abbrevs s'.abbrevs := by
  induction h with
  | refl => exact ⟨⟨[], by simp⟩, cacheExt_refl _⟩
  | tail _ hstep ih =>
    obtain ⟨⟨d1, hw1⟩, hc1⟩ := ih
    obtain ⟨⟨d2, hw2⟩, hc2⟩ := Step_post hstep
    exact ⟨⟨d1 ++ d2, by rw [hw2, hw1, List.append_assoc]⟩,
      cacheExt_trans hc1 hc2⟩

/-! ## Exact behaviour of `enc_ty` on hit and miss -/

/-- Cache hit: replay the stored bytes, nothing else changes. -/
theorem enc_ty_hit (cx : Ctxt) {s : EncSt} {t : Ty} {a : List Nat}
    (h : cacheLookup s.abbrevs t = some a) :
    enc_ty cx s t = .ok (wr s a) := by
  rw [enc_ty, h]

/-- Cache miss, dispatch succeeded: the result has the dispatch's stream
and the new cache entry in front. -/
theorem enc_ty_miss_ok (cx : Ctxt) {s : EncSt} {t : Ty} {s1 : EncSt}
    (hmiss : cacheLookup s.abbrevs t = none)
    (hsty : enc_sty cx s t = .ok s1) :
    enc_ty cx s t = .ok ⟨s1.w,
      (t, if (abbrevToken s.w.length).length < s1.w.length - s.w.length
          then abbrevToken s.w.length
          else (s1.w.drop s.w.length).take (s1.w.length - s.w.length))
        :: s1.abbrevs⟩ := by
  rw [enc_ty, hmiss, hsty]
  rfl

/-- Cache miss, dispatch aborted: the abort propagates. -/
theorem enc_ty_miss_err (cx : Ctxt) {s : EncSt} {t : Ty} {m : String}
    {s1 : EncSt} (hmiss : cacheLookup s.abbrevs t = none)
    (hsty : enc_sty cx s t = .err m s1) :
    enc_ty cx s t = .err m s1 := by
  rw [enc_ty, hmiss, hsty]
  rfl

theorem post_w_of_ok {s0 s1 : EncSt} {r : EncRes} (hp : Post s0 r)
    (h : r = .ok s1) : ∃ d2, s1.w = s0.w ++ d2 := by
  rw [h] at hp
  exact hp.1

/-- Every successful dispatch appends a nonempty suffix whose first byte
is the variant's tag — never `#` (35), the abbreviation tag. -/
theorem enc_sty_first_byte (cx : Ctxt) (s : EncSt) (t : Ty) (s1 : EncSt)
    (h : enc_sty cx s t = .ok s1) :
    ∃ d, s1.w = s.w ++ d ∧ d.head? ≠ some 35 ∧ d ≠ [] := by
  cases t with
  | TyBool =>
    simp only [enc_sty] at h
    injection h with h'
    subst h'
    exact ⟨_, rfl, by decide, by decide⟩
  | TyChar =>
    simp only [enc_sty] at h
    injection h with h'
    subst h'
    exact ⟨_, rfl, by decide, by decide⟩
  | TyNever =>
    simp only [enc_sty] at h
    injection h with h'
    subst h'
    exact ⟨_, rfl, by decide, by decide⟩
  | TyStr =>
    simp only [enc_sty] at h
    injection h with h'
    subst h'
    exact ⟨_, rfl, by decide, by decide⟩
  | TyError =>
    simp only [enc_sty] at h
    injection h with h'
    subst h'
    exact ⟨_, rfl, by decide, by decide⟩
  | TyInt it =>
    cases it <;>
      (simp only [enc_sty] at h
       injection h with h'
       subst h'
       exact ⟨_, rfl, by decide, by decide⟩)
  | TyUint ut =>
    cases ut <;>
      (simp only [enc_sty] at h
       injection h with h'
       subst h'
       exact ⟨_, rfl, by decide, by decide⟩)
  | TyFloat ft =>
    cases ft <;>
      (simp only [enc_sty] at h
       injection h with h'
       subst h'
       exact ⟨_, rfl, by decide, by decide⟩)
  | TyInfer v =>
    simp only [enc_sty] at h
    exact absurd h (by simp)
  | TyParam idx name =>
    simp only [enc_sty] at h
    injection h with h'
    subst h'
    refine ⟨_, rfl, ?_, ?_⟩ <;>
      simp [show strBytes "p[" = 112 :: [91] from by decide]
  | TyTrait principal builtin_bounds region_bound projection_bounds =>
    simp only [enc_sty] at h
    obtain ⟨d2, hd⟩ := post_w_of_ok
      (post_bind (enc_existential_trait_ref_post cx (wr s (strBytes "x[")) principal)
        (fun sa _ => post_of_st (enc_builtin_bounds_spec sa builtin_bounds)
          (post_bind (enc_region_post cx _ region_bound)
            (fun sb _ => post_bind (enc_projs_post cx sb projection_bounds)
              (fun sc _ => post_of_wr _ (post_wr ..)))))) h
    rw [wr_w, List.append_assoc] at hd
    refine ⟨_, hd, ?_, ?_⟩ <;>
      simp [show strBytes "x[" = 120 :: [91] from by decide]
  | TyTuple ts =>
    simp only [enc_sty] at h
    obtain ⟨d2, hd⟩ := post_w_of_ok
      (post_bind (enc_tys_post cx (wr s (strBytes "T[")) ts)
        (fun sa _ => post_wr ..)) h
    rw [wr_w, List.append_assoc] at hd
    refine ⟨_, hd, ?_, ?_⟩ <;>
      simp [show strBytes "T[" = 84 :: [91] from by decide]
  | TyBox typ =>
    simp only [enc_sty] at h
    obtain ⟨d2, hd⟩ := post_w_of_ok (enc_ty_post cx (wr s (strBytes "~")) typ) h
    rw [wr_w, List.append_assoc] at hd
    refine ⟨_, hd, ?_, ?_⟩ <;>
      simp [show strBytes "~" = 126 :: [] from by decide]
  | TyRawPtr mutbl ty =>
    simp only [enc_sty] at h
    obtain ⟨d2, hd⟩ := post_w_of_ok
      (enc_mt_post cx (wr s (strBytes "*")) mutbl ty) h
    rw [wr_w, List.append_assoc] at hd
    refine ⟨_, hd, ?_, ?_⟩ <;>
      simp [show strBytes "*" = 42 :: [] from by decide]
  | TyRef r mutbl ty =>
    simp only [enc_sty] at h
    obtain ⟨d2, hd⟩ := post_w_of_ok
      (post_bind (enc_region_post cx (wr s (strBytes "&")) r)
        (fun sa _ => enc_mt_post cx sa mutbl ty)) h
    rw [wr_w, List.append_assoc] at hd
    refine ⟨_, hd, ?_, ?_⟩ <;>
      simp [show strBytes "&" = 38 :: [] from by decide]
  | TyArray t1 sz =>
    simp only [enc_sty] at h
    obtain ⟨d2, hd⟩ := post_w_of_ok
      (post_bind (enc_ty_post cx (wr s (strBytes "V")) t1)
        (fun sa _ => post_wr ..)) h
    rw [wr_w, List.append_assoc] at hd
    refine ⟨_, hd, ?_, ?_⟩ <;>
      simp [show strBytes "V" = 86 :: [] from by decide]
  | TySlice t1 =>
    simp only [enc_sty] at h
    obtain ⟨d2, hd⟩ := post_w_of_ok
      (post_bind (enc_ty_post cx (wr s (strBytes "V")) t1)
        (fun sa _ => post_wr ..)) h
    rw [wr_w, List.append_assoc] at hd
    refine ⟨_, hd, ?_, ?_⟩ <;>
      simp [show strBytes "V" = 86 :: [] from by decide]
  | TyFnDef def_id substs f =>
    simp only [enc_sty] at h
    obtain ⟨d2, hd⟩ := post_w_of_ok
      (post_bind (enc_substs_post cx
          (wr s (strBytes "F" ++ cx.ds def_id ++ strBytes "|")) substs)
        (fun sa _ => enc_bare_fn_ty_post cx sa f)) h
    rw [wr_w, List.append_assoc] at hd
    refine ⟨_, hd, ?_, ?_⟩ <;>
      simp [show strBytes "F" = 70 :: [] from by decide]
  | TyFnPtr f =>
    simp only [enc_sty] at h
    obtain ⟨d2, hd⟩ := post_w_of_ok
      (enc_bare_fn_ty_post cx (wr s (strBytes "G")) f) h
    rw [wr_w, List.append_assoc] at hd
    refine ⟨_, hd, ?_, ?_⟩ <;>
      simp [show strBytes "G" = 71 :: [] from by decide]
  | TyAdt did substs =>
    simp only [enc_sty] at h
    obtain ⟨d2, hd⟩ := post_w_of_ok
      (post_bind (enc_substs_post cx
          (wr s (strBytes "a[" ++ cx.ds did ++ strBytes "|")) substs)
        (fun sa _ => post_wr ..)) h
    rw [wr_w, List.append_assoc] at hd
    refine ⟨_, hd, ?_, ?_⟩ <;>
      simp [show strBytes "a[" = 97 :: [91] from by decide]
  | TyClosure d func_substs upvar_tys =>
    simp only [enc_sty] at h
    obtain ⟨d2, hd⟩ := post_w_of_ok
      (post_bind (enc_substs_post cx
          (wr s (strBytes "k[" ++ cx.ds d ++ strBytes "|")) func_substs)
        (fun sa _ => post_bind (enc_tys_post cx sa upvar_tys)
          (fun sb _ => post_of_wr _ (post_wr ..)))) h
    rw [wr_w, List.append_assoc] at hd
    refine ⟨_, hd, ?_, ?_⟩ <;>
      simp [show strBytes "k[" = 107 :: [91] from by decide]
  | TyProjection trait_ref item_name =>
    simp only [enc_sty] at h
    obtain ⟨d2, hd⟩ := post_w_of_ok
      (post_bind (enc_trait_ref_post cx (wr s (strBytes "P[")) trait_ref)
        (fun sa _ => post_wr ..)) h
    rw [wr_w, List.append_assoc] at hd
    refine ⟨_, hd, ?_, ?_⟩ <;>
      simp [show strBytes "P[" = 80 :: [91] from by decide]
  | TyAnon def_id substs =>
    simp only [enc_sty] at h
    obtain ⟨d2, hd⟩ := post_w_of_ok
      (post_bind (enc_substs_post cx
          (wr s (strBytes "A[" ++ cx.ds def_id ++ strBytes "|")) substs)
        (fun sa _ => post_wr ..)) h
    rw [wr_w, List.append_assoc] at hd
    refine ⟨_, hd, ?_, ?_⟩ <;>
      simp [show strBytes "A[" = 65 :: [91] from by decide]

/-- First (cache-missing) successful encoding, fully characterized: the
dispatch appended span `d` (nonempty, not starting with `#`), and the
entry inserted for `t` is the candidate token when strictly shorter than
the span, else the verbatim span `d` itself. -/
theorem enc_ty_first (cx : Ctxt) {s : EncSt} {t : Ty} {s' : EncSt}
    (hmiss : cacheLookup s.abbrevs t = none)
    (h : enc_ty cx s t = .ok s') :
    ∃ d s1a,
      enc_sty cx s t = .ok ⟨s.w ++ d, s1a⟩ ∧
      s'.w = s.w ++ d ∧ d.head? ≠ some 35 ∧ d ≠ [] ∧
      s'.abbrevs = (t,
        if (abbrevToken s.w.length).length < d.length
        then abbrevToken s.w.length else d) :: s1a := by
  cases hsty : enc_sty cx s t with
  | err m s1 =>
    rw [enc_ty_miss_err cx hmiss hsty] at h
    cases h
  | ok s1 =>
    obtain ⟨d, hd, hhead, hne⟩ := enc_sty_first_byte cx s t s1 hsty
    rw [enc_ty_miss_ok cx hmiss hsty] at h
    injection h with h'
    subst h'
    refine ⟨d, s1.abbrevs, ?_, hd, hhead, hne, ?_⟩
    · have he : s1 = ⟨s.w ++ d, s1.abbrevs⟩ := by rw [← hd]
      exact congrArg EncRes.ok he
    · show (t, if (abbrevToken s.w.length).length < s1.w.length - s.w.length
            then abbrevToken s.w.length
            else (s1.w.drop s.w.length).take (s1.w.length - s.w.length))
          :: s1.abbrevs = _
      rw [hd, List.length_append, Nat.add_sub_cancel_left, List.drop_left,
        List.take_length]

/-- `lebDecode` inverts `leb128`. -/
theorem lebDecode_leb128 (n : Nat) : lebDecode (leb128 n) = n := by
  rw [leb128]
  split
  · rename_i h
    simp only [lebDecode]
    omega
  · rename_i h
    have ih := lebDecode_leb128 (n / 128)
    simp only [lebDecode, ih]
    omega
termination_by n
decreasing_by exact Nat.div_lt_self (by omega) (by omega)

/-- `leb128` always emits at least one byte. -/
theorem leb128_ne_nil (n : Nat) : leb128 n ≠ [] := by
  rw [leb128]
  split <;> simp

/-! ## Illegal inputs

`TyInfer`, inference regions (`ReVar`/`ReSkolemized`) and unrecognized
substitution elements must never reach the encoder; these checkers decide
whether a value contains such a variant anywhere. -/

/-- A region that is an inference variable or skolemized placeholder. -/
def regionIll : Region → Bool
  | .ReVar _ => true
  | .ReSkolemized _ _ => true
  | _ => false

mutual

def tyIll : Ty → Bool
  | .TyBool | .TyChar | .TyNever | .TyStr | .TyError => false
  | .TyInt _ | .TyUint _ | .TyFloat _ => false
  | .TyInfer _ => true
  | .TyParam _ _ => false
  | .TyTrait p _ rb pbs => etrIll p || regionIll rb || projsIll pbs
  | .TyTuple ts => tysIll ts
  | .TyBox t => tyIll t
  | .TyRawPtr _ t => tyIll t
  | .TyRef r _ t => regionIll r || tyIll t
  | .TyArray t _ => tyIll t
  | .TySlice t => tyIll t
  | .TyFnDef _ ks f => kindsIll ks || bareIll f
  | .TyFnPtr f => bareIll f
  | .TyAdt _ ks => kindsIll ks
  | .TyClosure _ ks us => kindsIll ks || tysIll us
  | .TyProjection tr _ => trIll tr
  | .TyAnon _ ks => kindsIll ks

def tysIll : List Ty → Bool
  | [] => false
  | t :: rest => tyIll t || tysIll rest

def kindIll : Kind → Bool
  | .asType t => tyIll t
  | .asRegion r => regionIll r
  | .other => true

def kindsIll : List Kind → Bool
  | [] => false
  | k :: rest => kindIll k || kindsIll rest

def bareIll : BareFnTy → Bool
  | .mk _ _ sig => sigIll sig

def sigIll : FnSig → Bool
  | .mk ins out _ => tysIll ins || tyIll out

def trIll : TraitRef → Bool
  | .mk _ ks => kindsIll ks

def etrIll : ExistentialTraitRef → Bool
  | .mk _ ks => kindsIll ks

def projIll : ExistentialProjection → Bool
  | .mk tr _ ty => etrIll tr || tyIll ty

def projsIll : List ExistentialProjection → Bool
  | [] => false
  | p :: rest => projIll p || projsIll rest

end

/-- A cache is legal when no key contains an illegal variant (any key was
fully and successfully encoded once, so this holds in every real
session). -/
def cacheLegal (c : List (Ty × List Nat)) : Prop :=
  ∀ k, tyIll k = true → cacheLookup c k = none

theorem bind_ok {r : EncRes} {f : EncSt → EncRes} {s' : EncSt}
    (h : r.bind f = .ok s') : ∃ s1, r = .ok s1 ∧ f s1 = .ok s' := by
  cases r with
  | ok s1 => exact ⟨s1, rfl, h⟩
  | err m s1 => exact absurd h (by simp [EncRes.bind])

/-- `enc_region` aborts, leaving the state untouched, exactly on the two
inference-only variants. -/
theorem enc_region_ill (cx : Ctxt) (s : EncSt) (r : Region)
    (h : regionIll r = true) :
    enc_region cx s r = .err "cannot encode region variables" s := by
  cases r <;> simp_all [regionIll, enc_region]

/-- A successful `enc_region` never touches the cache. -/
theorem enc_region_abbrevs (cx : Ctxt) (s : EncSt) (r : Region) {s' : EncSt}
    (h : enc_region cx s r = .ok s') : s'.abbrevs = s.abbrevs := by
  rcases enc_region_spec cx s r with ⟨d, hd⟩ | ⟨m, hm⟩
  · rw [hd] at h
    injection h with h'
    rw [← h']
    rfl
  · rw [hm] at h
    cases h

/-- The result aborts somewhere. -/
def errs (r : EncRes) : Prop := ∃ m s1, r = .err m s1

theorem errs_bind_left {r : EncRes} {f : EncSt → EncRes} (h : errs r) :
    errs (r.bind f) := by
  obtain ⟨m, s1, he⟩ := h
  exact ⟨m, s1, by rw [he]; rfl⟩

theorem errs_bind_right {r : EncRes} {f : EncSt → EncRes} {s1 : EncSt}
    (hok : r = .ok s1) (h : errs (f s1)) : errs (r.bind f) := by
  obtain ⟨m, s2, he⟩ := h
  exact ⟨m, s2, by rw [hok]; simpa [EncRes.bind] using he⟩

theorem abbrevs_of_wr_eq {s s1 : EncSt} (h : ∃ d, s1 = wr s d) :
    s1.abbrevs = s.abbrevs := by
  obtain ⟨d, rfl⟩ := h
  rfl

theorem cacheLegal_of_eq {c c' : List (Ty × List Nat)} (h : c' = c)
    (hc : cacheLegal c) : cacheLegal c' := h ▸ hc

/-! ## Abort propagation: any input containing an illegal variant aborts,
and successful calls keep the cache legal. -/

mutual

theorem enc_ty_ill (cx : Ctxt) (s : EncSt) (t : Ty)
    (hc : cacheLegal s.abbrevs) :
    (tyIll t = true → errs (enc_ty cx s t)) ∧
    (∀ s', enc_ty cx s t = .ok s' → cacheLegal s'.abbrevs) := by
  constructor
  · intro hill
    have hmiss : cacheLookup s.abbrevs t = none := hc t hill
    obtain ⟨m, s1, hsty⟩ := (enc_sty_ill cx s t hc).1 hill
    exact ⟨m, s1, enc_ty_miss_err cx hmiss hsty⟩
  · intro s' h
    cases hl : cacheLookup s.abbrevs t with
    | some a =>
      rw [enc_ty_hit cx hl] at h
      injection h with h'
      exact cacheLegal_of_eq (by rw [← h']; rfl) hc
    | none =>
      cases hsty : enc_sty cx s t with
      | err m s1 =>
        rw [enc_ty_miss_err cx hl hsty] at h
        cases h
      | ok s1 =>
        rw [enc_ty_miss_ok cx hl hsty] at h
        injection h with h'
        intro k hk
        have hk_ne : k ≠ t := by
          intro he
          obtain ⟨m2, s2, hsty2⟩ := (enc_sty_ill cx s t hc).1 (he ▸ hk)
          rw [hsty2] at hsty
          cases hsty
        have hlk := (enc_sty_ill cx s t hc).2 s1 hsty k hk
        rw [← h']
        show cacheLookup ((t, _) :: s1.abbrevs) k = none
        rw [cacheLookup_cons, if_neg hk_ne]
        exact hlk
termination_by 3 * sizeOf t + 1
decreasing_by all_goals (simp_wf <;> omega)

theorem enc_sty_ill (cx : Ctxt) (s : EncSt) (t : Ty)
    (hc : cacheLegal s.abbrevs) :
    (tyIll t = true → errs (enc_sty cx s t)) ∧
    (∀ s', enc_sty cx s t = .ok s' → cacheLegal s'.abbrevs) := by
  cases t with
  | TyBool =>
    refine ⟨fun hill => by simp [tyIll] at hill, fun s' h => ?_⟩
    simp only [enc_sty] at h
    injection h with h'
    exact cacheLegal_of_eq (by rw [← h']; rfl) hc
  | TyChar =>
    refine ⟨fun hill => by simp [tyIll] at hill, fun s' h => ?_⟩
    simp only [enc_sty] at h
    injection h with h'
    exact cacheLegal_of_eq (by rw [← h']; rfl) hc
  | TyNever =>
    refine ⟨fun hill => by simp [tyIll] at hill, fun s' h => ?_⟩
    simp only [enc_sty] at h
    injection h with h'
    exact cacheLegal_of_eq (by rw [← h']; rfl) hc
  | TyStr =>
    refine ⟨fun hill => by simp [tyIll] at hill, fun s' h => ?_⟩
    simp only [enc_sty] at h
    injection h with h'
    exact cacheLegal_of_eq (by rw [← h']; rfl) hc
  | TyError =>
    refine ⟨fun hill => by simp [tyIll] at hill, fun s' h => ?_⟩
    simp only [enc_sty] at h
    injection h with h'
    exact cacheLegal_of_eq (by rw [← h']; rfl) hc
  | TyParam idx name =>
    refine ⟨fun hill => by simp [tyIll] at hill, fun s' h => ?_⟩
    simp only [enc_sty] at h
    injection h with h'
    exact cacheLegal_of_eq (by rw [← h']; rfl) hc
  | TyInt it =>
    refine ⟨fun hill => by simp [tyIll] at hill, fun s' h => ?_⟩
    cases it <;>
      (simp only [enc_sty] at h
       injection h with h'
       exact cacheLegal_of_eq (by rw [← h']; rfl) hc)
  | TyUint ut =>
    refine ⟨fun hill => by simp [tyIll] at hill, fun s' h => ?_⟩
    cases ut <;>
      (simp only [enc_sty] at h
       injection h with h'
       exact cacheLegal_of_eq (by rw [← h']; rfl) hc)
  | TyFloat ft =>
    refine ⟨fun hill => by simp [tyIll] at hill, fun s' h => ?_⟩
    cases ft <;>
      (simp only [enc_sty] at h
       injection h with h'
       exact cacheLegal_of_eq (by rw [← h']; rfl) hc)
  | TyInfer v =>
    constructor
    · intro _
      exact ⟨"cannot encode inference variable types", s, by simp only [enc_sty]⟩
    · intro s' h
      simp only [enc_sty] at h
      cases h
  | TyTrait p bb rb pbs =>
    constructor
    · intro hill
      simp only [tyIll, Bool.or_eq_true] at hill
      simp only [enc_sty]
      rcases hill with (hA | hB) | hC
      · exact errs_bind_left
          ((enc_existential_trait_ref_ill cx (wr s (strBytes "x[")) p hc).1 hA)
      · cases h1 : enc_existential_trait_ref cx (wr s (strBytes "x[")) p with
        | err m s1 => exact errs_bind_left ⟨m, s1, rfl⟩
        | ok s1 =>
          refine errs_bind_right rfl ?_
          exact errs_bind_left ⟨_, _, enc_region_ill cx _ rb hB⟩
      · cases h1 : enc_existential_trait_ref cx (wr s (strBytes "x[")) p with
        | err m s1 => exact errs_bind_left ⟨m, s1, rfl⟩
        | ok s1 =>
          refine errs_bind_right rfl ?_
          cases h2 : enc_region cx (enc_builtin_bounds s1 bb) rb with
          | err m s2 => exact errs_bind_left ⟨m, s2, rfl⟩
          | ok s2 =>
            refine errs_bind_right rfl ?_
            have e1 : cacheLegal s1.abbrevs :=
              (enc_existential_trait_ref_ill cx (wr s (strBytes "x[")) p hc).2 s1 h1
            have e2 : s2.abbrevs = s1.abbrevs := by
              rw [enc_region_abbrevs cx _ rb h2]
              exact abbrevs_of_wr_eq (enc_builtin_bounds_spec s1 bb)
            exact errs_bind_left
              ((enc_projs_ill cx s2 pbs (cacheLegal_of_eq e2 e1)).1 hC)
    · intro s' h
      simp only [enc_sty] at h
      obtain ⟨s1, h1, h⟩ := bind_ok h
      obtain ⟨s2, h2, h⟩ := bind_ok h
      obtain ⟨s3, h3, h⟩ := bind_ok h
      injection h with h'
      have e1 : cacheLegal s1.abbrevs :=
        (enc_existential_trait_ref_ill cx (wr s (strBytes "x[")) p hc).2 s1 h1
      have e2 : s2.abbrevs = s1.abbrevs := by
        rw [enc_region_abbrevs cx _ rb h2]
        exact abbrevs_of_wr_eq (enc_builtin_bounds_spec s1 bb)
      have e3 : cacheLegal s3.abbrevs :=
        (enc_projs_ill cx s2 pbs (cacheLegal_of_eq e2 e1)).2 s3 h3
      exact cacheLegal_of_eq (by rw [← h']; rfl) e3
  | TyTuple ts =>
    constructor
    · intro hill
      simp only [tyIll] at hill
      simp only [enc_sty]
      exact errs_bind_left ((enc_tys_ill cx (wr s (strBytes "T[")) ts hc).1 hill)
    · intro s' h
      simp only [enc_sty] at h
      obtain ⟨s1, h1, h⟩ := bind_ok h
      injection h with h'
      exact cacheLegal_of_eq (by rw [← h']; rfl)
        ((enc_tys_ill cx (wr s (strBytes "T[")) ts hc).2 s1 h1)
  | TyBox typ =>
    constructor
    · intro hill
      simp only [tyIll] at hill
      simp only [enc_sty]
      exact (enc_ty_ill cx (wr s (strBytes "~")) typ hc).1 hill
    · intro s' h
      simp only [enc_sty] at h
      exact (enc_ty_ill cx (wr s (strBytes "~")) typ hc).2 s' h
  | TyRawPtr mutbl ty =>
    constructor
    · intro hill
      simp only [tyIll] at hill
      simp only [enc_sty]
      exact (enc_mt_ill cx (wr s (strBytes "*")) mutbl ty hc).1 hill
    · intro s' h
      simp only [enc_sty] at h
      exact (enc_mt_ill cx (wr s (strBytes "*")) mutbl ty hc).2 s' h
  | TyRef r mutbl ty =>
    constructor
    · intro hill
      simp only [tyIll, Bool.or_eq_true] at hill
      simp only [enc_sty]
      rcases hill with hA | hB
      · exact errs_bind_left ⟨_, _, enc_region_ill cx _ r hA⟩
      · cases h1 : enc_region cx (wr s (strBytes "&")) r with
        | err m s1 => exact errs_bind_left ⟨m, s1, rfl⟩
        | ok s1 =>
          refine errs_bind_right rfl ?_
          have e1 : cacheLegal s1.abbrevs :=
            cacheLegal_of_eq (enc_region_abbrevs cx _ r h1) hc
          exact (enc_mt_ill cx s1 mutbl ty e1).1 hB
    · intro s' h
      simp only [enc_sty] at h
      obtain ⟨s1, h1, h⟩ := bind_ok h
      have e1 : cacheLegal s1.abbrevs :=
        cacheLegal_of_eq (enc_region_abbrevs cx _ r h1) hc
      exact (enc_mt_ill cx s1 mutbl ty e1).2 s' h
  | TyArray t1 sz =>
    constructor
    · intro hill
      simp only [tyIll] at hill
      simp only [enc_sty]
      exact errs_bind_left ((enc_ty_ill cx (wr s (strBytes "V")) t1 hc).1 hill)
    · intro s' h
      simp only [enc_sty] at h
      obtain ⟨s1, h1, h⟩ := bind_ok h
      injection h with h'
      exact cacheLegal_of_eq (by rw [← h']; rfl)
        ((enc_ty_ill cx (wr s (strBytes "V")) t1 hc).2 s1 h1)
  | TySlice t1 =>
    constructor
    · intro hill
      simp only [tyIll] at hill
      simp only [enc_sty]
      exact errs_bind_left ((enc_ty_ill cx (wr s (strBytes "V")) t1 hc).1 hill)
    · intro s' h
      simp only [enc_sty] at h
      obtain ⟨s1, h1, h⟩ := bind_ok h
      injection h with h'
      exact cacheLegal_of_eq (by rw [← h']; rfl)
        ((enc_ty_ill cx (wr s (strBytes "V")) t1 hc).2 s1 h1)
  | TyFnDef def_id substs f =>
    constructor
    · intro hill
      simp only [tyIll, Bool.or_eq_true] at hill
      simp only [enc_sty]
      rcases hill with hA | hB
      · exact errs_bind_left ((enc_substs_ill cx (wr s (strBytes "F" ++ cx.ds def_id ++ strBytes "|")) substs hc).1 hA)
      · cases h1 : enc_substs cx
            (wr s (strBytes "F" ++ cx.ds def_id ++ strBytes "|")) substs with
        | err m s1 => exact errs_bind_left ⟨m, s1, rfl⟩
        | ok s1 =>
          refine errs_bind_right rfl ?_
          exact (enc_bare_fn_ty_ill cx s1 f
            ((enc_substs_ill cx
              (wr s (strBytes "F" ++ cx.ds def_id ++ strBytes "|"))
              substs hc).2 s1 h1)).1 hB
    · intro s' h
      simp only [enc_sty] at h
      obtain ⟨s1, h1, h⟩ := bind_ok h
      exact (enc_bare_fn_ty_ill cx s1 f
        ((enc_substs_ill cx
          (wr s (strBytes "F" ++ cx.ds def_id ++ strBytes "|"))
          substs hc).2 s1 h1)).2 s' h
  | TyFnPtr f =>
    constructor
    · intro hill
      simp only [tyIll] at hill
      simp only [enc_sty]
      exact (enc_bare_fn_ty_ill cx (wr s (strBytes "G")) f hc).1 hill
    · intro s' h
      simp only [enc_sty] at h
      exact (enc_bare_fn_ty_ill cx (wr s (strBytes "G")) f hc).2 s' h
  | TyAdt did substs =>
    constructor
    · intro hill
      simp only [tyIll] at hill
      simp only [enc_sty]
      exact errs_bind_left ((enc_substs_ill cx
        (wr s (strBytes "a[" ++ cx.ds did ++ strBytes "|")) substs hc).1 hill)
    · intro s' h
      simp only [enc_sty] at h
      obtain ⟨s1, h1, h⟩ := bind_ok h
      injection h with h'
      exact cacheLegal_of_eq (by rw [← h']; rfl)
        ((enc_substs_ill cx
          (wr s (strBytes "a[" ++ cx.ds did ++ strBytes "|")) substs hc).2 s1 h1)
  | TyClosure d func_substs upvar_tys =>
    constructor
    · intro hill
      simp only [tyIll, Bool.or_eq_true] at hill
      simp only [enc_sty]
      rcases hill with hA | hB
      · exact errs_bind_left ((enc_substs_ill cx (wr s (strBytes "k[" ++ cx.ds d ++ strBytes "|")) func_substs hc).1 hA)
      · cases h1 : enc_substs cx
            (wr s (strBytes "k[" ++ cx.ds d ++ strBytes "|")) func_substs with
        | err m s1 => exact errs_bind_left ⟨m, s1, rfl⟩
        | ok s1 =>
          refine errs_bind_right rfl ?_
          exact errs_bind_left ((enc_tys_ill cx s1 upvar_tys
            ((enc_substs_ill cx
              (wr s (strBytes "k[" ++ cx.ds d ++ strBytes "|"))
              func_substs hc).2 s1 h1)).1 hB)
    · intro s' h
      simp only [enc_sty] at h
      obtain ⟨s1, h1, h⟩ := bind_ok h
      obtain ⟨s2, h2, h⟩ := bind_ok h
      injection h with h'
      exact cacheLegal_of_eq (by rw [← h']; rfl)
        ((enc_tys_ill cx s1 upvar_tys
          ((enc_substs_ill cx
            (wr s (strBytes "k[" ++ cx.ds d ++ strBytes "|"))
            func_substs hc).2 s1 h1)).2 s2 h2)
  | TyProjection trait_ref item_name =>
    constructor
    · intro hill
      simp only [tyIll] at hill
      simp only [enc_sty]
      exact errs_bind_left ((enc_trait_ref_ill cx (wr s (strBytes "P[")) trait_ref hc).1 hill)
    · intro s' h
      simp only [enc_sty] at h
      obtain ⟨s1, h1, h⟩ := bind_ok h
      injection h with h'
      exact cacheLegal_of_eq (by rw [← h']; rfl)
        ((enc_trait_ref_ill cx (wr s (strBytes "P[")) trait_ref hc).2 s1 h1)
  | TyAnon def_id substs =>
    constructor
    · intro hill
      simp only [tyIll] at hill
      simp only [enc_sty]
      exact errs_bind_left ((enc_substs_ill cx
        (wr s (strBytes "A[" ++ cx.ds def_id ++ strBytes "|")) substs hc).1 hill)
    · intro s' h
      simp only [enc_sty] at h
      obtain ⟨s1, h1, h⟩ := bind_ok h
      injection h with h'
      exact cacheLegal_of_eq (by rw [← h']; rfl)
        ((enc_substs_ill cx
          (wr s (strBytes "A[" ++ cx.ds def_id ++ strBytes "|")) substs hc).2 s1 h1)
termination_by 3 * sizeOf t
decreasing_by all_goals (simp_wf <;> omega)

theorem enc_tys_ill (cx : Ctxt) (s : EncSt) (ts : List Ty)
    (hc : cacheLegal s.abbrevs) :
    (tysIll ts = true → errs (enc_tys cx s ts)) ∧
    (∀ s', enc_tys cx s ts = .ok s' → cacheLegal s'.abbrevs) := by
  cases ts with
  | nil =>
    refine ⟨fun hill => by simp [tysIll] at hill, fun s' h => ?_⟩
    simp only [enc_tys] at h
    injection h with h'
    exact cacheLegal_of_eq (by rw [← h']) hc
  | cons t rest =>
    constructor
    · intro hill
      simp only [tysIll, Bool.or_eq_true] at hill
      simp only [enc_tys]
      rcases hill with hA | hB
      · exact errs_bind_left ((enc_ty_ill cx s t hc).1 hA)
      · cases h1 : enc_ty cx s t with
        | err m s1 => exact errs_bind_left ⟨m, s1, rfl⟩
        | ok s1 =>
          refine errs_bind_right rfl ?_
          exact (enc_tys_ill cx s1 rest ((enc_ty_ill cx s t hc).2 s1 h1)).1 hB
    · intro s' h
      simp only [enc_tys] at h
      obtain ⟨s1, h1, h⟩ := bind_ok h
      exact (enc_tys_ill cx s1 rest ((enc_ty_ill cx s t hc).2 s1 h1)).2 s' h
termination_by 3 * sizeOf ts
decreasing_by all_goals (simp_wf <;> omega)

theorem enc_mt_ill (cx : Ctxt) (s : EncSt) (mutbl : Mutability) (ty : Ty)
    (hc : cacheLegal s.abbrevs) :
    (tyIll ty = true → errs (enc_mt cx s mutbl ty)) ∧
    (∀ s', enc_mt cx s mutbl ty = .ok s' → cacheLegal s'.abbrevs) := by
  have hc' : cacheLegal (enc_mutability s mutbl).abbrevs :=
    cacheLegal_of_eq (abbrevs_of_wr_eq (enc_mutability_spec s mutbl)) hc
  constructor
  · intro hill
    rw [enc_mt]
    exact (enc_ty_ill cx _ ty hc').1 hill
  · intro s' h
    rw [enc_mt] at h
    exact (enc_ty_ill cx _ ty hc').2 s' h
termination_by 3 * sizeOf ty + 2
decreasing_by all_goals (simp_wf <;> omega)

theorem enc_substs_ill (cx : Ctxt) (s : EncSt) (ks : List Kind)
    (hc : cacheLegal s.abbrevs) :
    (kindsIll ks = true → errs (enc_substs cx s ks)) ∧
    (∀ s', enc_substs cx s ks = .ok s' → cacheLegal s'.abbrevs) := by
  constructor
  · intro hill
    rw [enc_substs]
    exact errs_bind_left ((enc_params_ill cx (wr s (strBytes "[")) ks hc).1 hill)
  · intro s' h
    rw [enc_substs] at h
    obtain ⟨s1, h1, h⟩ := bind_ok h
    injection h with h'
    exact cacheLegal_of_eq (by rw [← h']; rfl)
      ((enc_params_ill cx (wr s (strBytes "[")) ks hc).2 s1 h1)
termination_by 3 * sizeOf ks + 2
decreasing_by all_goals (simp_wf <;> omega)

theorem enc_params_ill (cx : Ctxt) (s : EncSt) (ks : List Kind)
    (hc : cacheLegal s.abbrevs) :
    (kindsIll ks = true → errs (enc_params cx s ks)) ∧
    (∀ s', enc_params cx s ks = .ok s' → cacheLegal s'.abbrevs) := by
  cases ks with
  | nil =>
    refine ⟨fun hill => by simp [kindsIll] at hill, fun s' h => ?_⟩
    simp only [enc_params] at h
    injection h with h'
    exact cacheLegal_of_eq (by rw [← h']) hc
  | cons k rest =>
    cases k with
    | asType ty =>
      constructor
      · intro hill
        simp only [kindsIll, kindIll, Bool.or_eq_true] at hill
        simp only [enc_params]
        rcases hill with hA | hB
        · exact errs_bind_left ((enc_ty_ill cx (wr s (strBytes "t")) ty hc).1 hA)
        · cases h1 : enc_ty cx (wr s (strBytes "t")) ty with
          | err m s1 => exact errs_bind_left ⟨m, s1, rfl⟩
          | ok s1 =>
            refine errs_bind_right rfl ?_
            exact (enc_params_ill cx s1 rest
              ((enc_ty_ill cx (wr s (strBytes "t")) ty hc).2 s1 h1)).1 hB
      · intro s' h
        simp only [enc_params] at h
        obtain ⟨s1, h1, h⟩ := bind_ok h
        exact (enc_params_ill cx s1 rest
          ((enc_ty_ill cx (wr s (strBytes "t")) ty hc).2 s1 h1)).2 s' h
    | asRegion r =>
      constructor
      · intro hill
        simp only [kindsIll, kindIll, Bool.or_eq_true] at hill
        simp only [enc_params]
        rcases hill with hA | hB
        · exact errs_bind_left ⟨_, _, enc_region_ill cx _ r hA⟩
        · cases h1 : enc_region cx (wr s (strBytes "r")) r with
          | err m s1 => exact errs_bind_left ⟨m, s1, rfl⟩
          | ok s1 =>
            refine errs_bind_right rfl ?_
            exact (enc_params_ill cx s1 rest
              (cacheLegal_of_eq (enc_region_abbrevs cx _ r h1) hc)).1 hB
      · intro s' h
        simp only [enc_params] at h
        obtain ⟨s1, h1, h⟩ := bind_ok h
        exact (enc_params_ill cx s1 rest
          (cacheLegal_of_eq (enc_region_abbrevs cx _ r h1) hc)).2 s' h
    | other =>
      constructor
      · intro _
        exact ⟨"", s, by simp only [enc_params]⟩
      · intro s' h
        simp only [enc_params] at h
        cases h
termination_by 3 * sizeOf ks + 1
decreasing_by all_goals (simp_wf <;> omega)

theorem enc_trait_ref_ill (cx : Ctxt) (s : EncSt) (tr : TraitRef)
    (hc : cacheLegal s.abbrevs) :
    (trIll tr = true → errs (enc_trait_ref cx s tr)) ∧
    (∀ s', enc_trait_ref cx s tr = .ok s' → cacheLegal s'.abbrevs) := by
  cases tr with
  | mk def_id substs =>
    constructor
    · intro hill
      simp only [trIll] at hill
      simp only [enc_trait_ref]
      exact ((enc_substs_ill cx (wr s (cx.ds def_id ++ strBytes "|"))
        substs hc).1 hill)
    · intro s' h
      simp only [enc_trait_ref] at h
      exact (enc_substs_ill cx (wr s (cx.ds def_id ++ strBytes "|"))
        substs hc).2 s' h
termination_by 3 * sizeOf tr
decreasing_by all_goals (simp_wf <;> omega)

theorem enc_existential_trait_ref_ill (cx : Ctxt) (s : EncSt)
    (tr : ExistentialTraitRef) (hc : cacheLegal s.abbrevs) :
    (etrIll tr = true → errs (enc_existential_trait_ref cx s tr)) ∧
    (∀ s', enc_existential_trait_ref cx s tr = .ok s' →
      cacheLegal s'.abbrevs) := by
  cases tr with
  | mk def_id substs =>
    constructor
    · intro hill
      simp only [etrIll] at hill
      simp only [enc_existential_trait_ref]
      exact ((enc_substs_ill cx (wr s (cx.ds def_id ++ strBytes "|"))
        substs hc).1 hill)
    · intro s' h
      simp only [enc_existential_trait_ref] at h
      exact (enc_substs_ill cx (wr s (cx.ds def_id ++ strBytes "|"))
        substs hc).2 s' h
termination_by 3 * sizeOf tr
decreasing_by all_goals (simp_wf <;> omega)

theorem enc_projs_ill (cx : Ctxt) (s : EncSt) (ps : List ExistentialProjection)
    (hc : cacheLegal s.abbrevs) :
    (projsIll ps = true → errs (enc_projs cx s ps)) ∧
    (∀ s', enc_projs cx s ps = .ok s' → cacheLegal s'.abbrevs) := by
  cases ps with
  | nil =>
    refine ⟨fun hill => by simp [projsIll] at hill, fun s' h => ?_⟩
    simp only [enc_projs] at h
    injection h with h'
    exact cacheLegal_of_eq (by rw [← h']) hc
  | cons p rest =>
    constructor
    · intro hill
      simp only [projsIll, Bool.or_eq_true] at hill
      simp only [enc_projs]
      rcases hill with hA | hB
      · exact errs_bind_left
          ((enc_existential_projection_ill cx (wr s (strBytes "P")) p hc).1 hA)
      · cases h1 : enc_existential_projection cx (wr s (strBytes "P")) p with
        | err m s1 => exact errs_bind_left ⟨m, s1, rfl⟩
        | ok s1 =>
          refine errs_bind_right rfl ?_
          exact (enc_projs_ill cx s1 rest
            ((enc_existential_projection_ill cx (wr s (strBytes "P")) p hc).2 s1 h1)).1 hB
    · intro s' h
      simp only [enc_projs] at h
      obtain ⟨s1, h1, h⟩ := bind_ok h
      exact (enc_projs_ill cx s1 rest
        ((enc_existential_projection_ill cx (wr s (strBytes "P")) p hc).2 s1 h1)).2 s' h
termination_by 3 * sizeOf ps
decreasing_by all_goals (simp_wf <;> omega)

theorem enc_existential_projection_ill (cx : Ctxt) (s : EncSt)
    (p : ExistentialProjection) (hc : cacheLegal s.abbrevs) :
    (projIll p = true → errs (enc_existential_projection cx s p)) ∧
    (∀ s', enc_existential_projection cx s p = .ok s' →
      cacheLegal s'.abbrevs) := by
  cases p with
  | mk trait_ref item_name ty =>
    constructor
    · intro hill
      simp only [projIll, Bool.or_eq_true] at hill
      simp only [enc_existential_projection]
      rcases hill with hA | hB
      · exact errs_bind_left
          ((enc_existential_trait_ref_ill cx s trait_ref hc).1 hA)
      · cases h1 : enc_existential_trait_ref cx s trait_ref with
        | err m s1 => exact errs_bind_left ⟨m, s1, rfl⟩
        | ok s1 =>
          refine errs_bind_right rfl ?_
          exact (enc_ty_ill cx (wr s1 (item_name ++ strBytes "|")) ty
            ((enc_existential_trait_ref_ill cx s trait_ref hc).2 s1 h1)).1 hB
    · intro s' h
      simp only [enc_existential_projection] at h
      obtain ⟨s1, h1, h⟩ := bind_ok h
      exact (enc_ty_ill cx (wr s1 (item_name ++ strBytes "|")) ty
        ((enc_existential_trait_ref_ill cx s trait_ref hc).2 s1 h1)).2 s' h
termination_by 3 * sizeOf p
decreasing_by all_goals (simp_wf <;> omega)

theorem enc_bare_fn_ty_ill (cx : Ctxt) (s : EncSt) (ft : BareFnTy)
    (hc : cacheLegal s.abbrevs) :
    (bareIll ft = true → errs (enc_bare_fn_ty cx s ft)) ∧
    (∀ s', enc_bare_fn_ty cx s ft = .ok s' → cacheLegal s'.abbrevs) := by
  cases ft with
  | mk unsafety abi sig =>
    have hc' : cacheLegal (enc_abi (enc_unsafety s unsafety) abi).abbrevs := by
      refine cacheLegal_of_eq ?_ hc
      rw [abbrevs_of_wr_eq (enc_abi_spec (enc_unsafety s unsafety) abi)]
      exact abbrevs_of_wr_eq (enc_unsafety_spec s unsafety)
    constructor
    · intro hill
      simp only [bareIll] at hill
      simp only [enc_bare_fn_ty]
      exact (enc_fn_sig_ill cx _ sig hc').1 hill
    · intro s' h
      simp only [enc_bare_fn_ty] at h
      exact (enc_fn_sig_ill cx _ sig hc').2 s' h
termination_by 3 * sizeOf ft
decreasing_by all_goals (simp_wf <;> omega)

theorem enc_fn_sig_ill (cx : Ctxt) (s : EncSt) (fsig : FnSig)
    (hc : cacheLegal s.abbrevs) :
    (sigIll fsig = true → errs (enc_fn_sig cx s fsig)) ∧
    (∀ s', enc_fn_sig cx s fsig = .ok s' → cacheLegal s'.abbrevs) := by
  cases fsig with
  | mk inputs output variadic =>
    constructor
    · intro hill
      simp only [sigIll, Bool.or_eq_true] at hill
      simp only [enc_fn_sig]
      rcases hill with hA | hB
      · exact errs_bind_left ((enc_tys_ill cx (wr s (strBytes "[")) inputs hc).1 hA)
      · cases h1 : enc_tys cx (wr s (strBytes "[")) inputs with
        | err m s1 => exact errs_bind_left ⟨m, s1, rfl⟩
        | ok s1 =>
          refine errs_bind_right rfl ?_
          exact (enc_ty_ill cx
            (wr (wr s1 (strBytes "]"))
              (strBytes (if variadic then "V" else "N"))) output
            ((enc_tys_ill cx (wr s (strBytes "[")) inputs hc).2 s1 h1)).1 hB
    · intro s' h
      simp only [enc_fn_sig] at h
      obtain ⟨s1, h1, h⟩ := bind_ok h
      exact (enc_ty_ill cx
        (wr (wr s1 (strBytes "]"))
          (strBytes (if variadic then "V" else "N"))) output
        ((enc_tys_ill cx (wr s (strBytes "[")) inputs hc).2 s1 h1)).2 s' h
termination_by 3 * sizeOf fsig
decreasing_by all_goals (simp_wf <;> omega)

end

/-! ## Small helpers for the claim statements -/

/-- The bytes `enc_unsafety` writes. -/
def ustr : Unsafety → List Nat
  | .Normal => strBytes "n"
  | .Unsafe_ => strBytes "u"

theorem enc_unsafety_eq (s : EncSt) (u : Unsafety) :
    enc_unsafety s u = wr s (ustr u) := by
  cases u <;> rfl

/-! ## The claims -/

/-- C1 (abbreviation-choice law): in `enc_ty`, for a type `t` not already
in the abbreviation cache, after dispatching wrote `t`'s encoding as a
span of `len` bytes starting at position `pos`, the entry inserted into
the cache for `t` is the candidate back-reference token (`#` followed by
the minimal LEB128 encoding of `pos`) if and only if that candidate is
strictly shorter than `len`; otherwise the inserted entry is exactly the
verbatim span bytes `w[pos..end]`, never a back-reference. -/
theorem claim_C1_abbrev_choice (cx : Ctxt) (s : EncSt) (t : Ty) (s' : EncSt)
    (hmiss : cacheLookup s.abbrevs t = none)
    (h : enc_ty cx s t = .ok s') :
    ∃ e, cacheLookup s'.abbrevs t = some e ∧
      e = (if (abbrevToken s.w.length).length < s'.w.length - s.w.length
           then abbrevToken s.w.length
           else (s'.w.drop s.w.length).take (s'.w.length - s.w.length)) ∧
      (e = abbrevToken s.w.length ↔
        (abbrevToken s.w.length).length < s'.w.length - s.w.length) := by
  obtain ⟨d, s1a, hsty, hw, hhead, hne, hab⟩ := enc_ty_first cx hmiss h
  have hlen : s'.w.length - s.w.length = d.length := by
    rw [hw, List.length_append]
    omega
  have hspan : (s'.w.drop s.w.length).take d.length = d := by
    rw [hw, List.drop_left, List.take_length]
  refine ⟨if (abbrevToken s.w.length).length < d.length
          then abbrevToken s.w.length else d, ?_, ?_, ?_⟩
  · rw [hab, cacheLookup_cons, if_pos rfl]
  · rw [hlen, hspan]
  · rw [hlen]
    constructor
    · intro he
      by_contra hlt
      rw [if_neg hlt] at he
      apply hhead
      rw [he]
      rfl
    · intro hlt
      rw [if_pos hlt]

/-- Witness for C1 at `t = bool` from an empty session: the span is `b`
(one byte), the candidate token is two bytes, so the verbatim span is
cached. -/
theorem claim_C1_abbrev_choice_witness :
    cacheLookup ([] : List (Ty × List Nat)) .TyBool = none ∧
    ∃ e, cacheLookup [(Ty.TyBool, [98])] .TyBool = some e ∧
      e = (if (abbrevToken 0).length < 1 then abbrevToken 0 else [98]) ∧
      (e = abbrevToken 0 ↔ (abbrevToken 0).length < 1) :=
  ⟨rfl, claim_C1_abbrev_choice ⟨fun _ => [], fun _ => .Misc 0⟩ ⟨[], []⟩
    .TyBool ⟨[98], [(.TyBool, [98])]⟩ rfl
    (by simp [enc_ty, enc_sty, cacheLookup, wr, strBytes, abbrevToken,
      leb128, EncRes.bind])⟩

/-- C2 (abbreviation bound): if the first encoding of `t` wrote `N` bytes
(`d`, with `N = d.length`) at position `P = s.w.length`, then at any
later state of the same session a call `enc_ty` on `t` appends exactly
the cached entry `e` with `e.length ≤ N`; and when the entry is the
back-reference token, the position it encodes is exactly `P`, and the
bytes at `[P, P+N)` in the later stream are still the original `N` span
bytes, so resolving the reference reproduces them. -/
theorem claim_C2_abbrev_bound (cx : Ctxt) (s : EncSt) (t : Ty)
    (s' s2 : EncSt) (hmiss : cacheLookup s.abbrevs t = none)
    (h : enc_ty cx s t = .ok s') (hreach : Reach cx s' s2) :
    ∃ d e, s'.w = s.w ++ d ∧
      cacheLookup s2.abbrevs t = some e ∧
      enc_ty cx s2 t = .ok (wr s2 e) ∧
      e.length ≤ d.length ∧
      ((abbrevToken s.w.length).length < d.length →
        e = abbrevToken s.w.length ∧
        lebDecode (e.drop 1) = s.w.length ∧
        (s2.w.drop s.w.length).take d.length = d) := by
  obtain ⟨d, s1a, hsty, hw, hhead, hne, hab⟩ := enc_ty_first cx hmiss h
  have hent : cacheLookup s'.abbrevs t =
      some (if (abbrevToken s.w.length).length < d.length
            then abbrevToken s.w.length else d) := by
    rw [hab, cacheLookup_cons, if_pos rfl]
  obtain ⟨⟨d2, hw2⟩, hcext⟩ := Reach_post hreach
  have hl2 := cacheExt_keep hcext hent
  refine ⟨d, _, hw, hl2, enc_ty_hit cx hl2, ?_, ?_⟩
  · split
    · rename_i hlt
      exact Nat.le_of_lt hlt
    · exact Nat.le_refl _
  · intro hlt
    refine ⟨by rw [if_pos hlt], ?_, ?_⟩
    · rw [if_pos hlt]
      show lebDecode (leb128 s.w.length) = s.w.length
      exact lebDecode_leb128 _
    · rw [hw2, hw, List.append_assoc, List.drop_left, List.take_left]

/-- Witness for C2 with the tuple `(bool, char)` and the later state being
the state right after the first encoding. -/
theorem claim_C2_abbrev_bound_witness :
    cacheLookup ([] : List (Ty × List Nat)) (.TyTuple [.TyBool, .TyChar]) =
      none ∧
    ∃ d e, ([84, 91, 98, 99, 93] : List Nat) = [] ++ d ∧
      cacheLookup [(Ty.TyTuple [.TyBool, .TyChar], [35, 0]),
        (Ty.TyChar, [99]), (Ty.TyBool, [98])] (.TyTuple [.TyBool, .TyChar]) =
        some e ∧
      enc_ty ⟨fun _ => [], fun _ => .Misc 0⟩
        ⟨[84, 91, 98, 99, 93],
         [(.TyTuple [.TyBool, .TyChar], [35, 0]), (.TyChar, [99]),
          (.TyBool, [98])]⟩ (.TyTuple [.TyBool, .TyChar]) =
        .ok (wr ⟨[84, 91, 98, 99, 93],
         [(.TyTuple [.TyBool, .TyChar], [35, 0]), (.TyChar, [99]),
          (.TyBool, [98])]⟩ e) ∧
      e.length ≤ d.length ∧
      ((abbrevToken 0).length < d.length →
        e = abbrevToken 0 ∧
        lebDecode (e.drop 1) = 0 ∧
        (([84, 91, 98, 99, 93] : List Nat).drop 0).take d.length = d) :=
  ⟨rfl, claim_C2_abbrev_bound ⟨fun _ => [], fun _ => .Misc 0⟩ ⟨[], []⟩
    (.TyTuple [.TyBool, .TyChar])
    ⟨[84, 91, 98, 99, 93],
     [(.TyTuple [.TyBool, .TyChar], [35, 0]), (.TyChar, [99]),
      (.TyBool, [98])]⟩ _ rfl
    (by simp [enc_ty, enc_sty, enc_tys, cacheLookup, wr, strBytes,
      abbrevToken, leb128, EncRes.bind, tyBeq, tysBeq])
    (.refl _)⟩

/-- C3 counterexample: the claim says the second call appends bytes
identical to the first call's. For the tuple `(bool, char)` from an empty
session, the first call appends the 5-byte span `T[bc]` but the second
call appends the 2-byte back-reference token `#` + LEB128(0): the
sequences differ. -/
theorem claim_C3_counterexample :
    enc_ty ⟨fun _ => [], fun _ => .Misc 0⟩ ⟨[], []⟩
      (.TyTuple [.TyBool, .TyChar]) =
      .ok ⟨[84, 91, 98, 99, 93],
        [(.TyTuple [.TyBool, .TyChar], [35, 0]), (.TyChar, [99]),
         (.TyBool, [98])]⟩ ∧
    enc_ty ⟨fun _ => [], fun _ => .Misc 0⟩
      ⟨[84, 91, 98, 99, 93],
       [(.TyTuple [.TyBool, .TyChar], [35, 0]), (.TyChar, [99]),
        (.TyBool, [98])]⟩ (.TyTuple [.TyBool, .TyChar]) =
      .ok ⟨[84, 91, 98, 99, 93, 35, 0],
        [(.TyTuple [.TyBool, .TyChar], [35, 0]), (.TyChar, [99]),
         (.TyBool, [98])]⟩ ∧
    ([35, 0] : List Nat) ≠ [84, 91, 98, 99, 93] := by
  refine ⟨?_, ?_, by decide⟩ <;>
    simp [enc_ty, enc_sty, enc_tys, cacheLookup, wr, strBytes, abbrevToken,
      leb128, EncRes.bind, tyBeq, tysBeq]

/-- C3 (amended): calling `enc_ty` again on `t` later in the session
appends exactly the cached entry — the same byte sequence at every later
call — and that sequence equals the bytes of the first call exactly when
the candidate back-reference token was not strictly shorter than the
first span; when it was strictly shorter, the later calls append the
token instead. -/
theorem claim_C3_determinism (cx : Ctxt) (s : EncSt) (t : Ty)
    (s' s2 : EncSt) (hmiss : cacheLookup s.abbrevs t = none)
    (h : enc_ty cx s t = .ok s') (hreach : Reach cx s' s2) :
    ∃ d e, s'.w = s.w ++ d ∧
      cacheLookup s2.abbrevs t = some e ∧
      enc_ty cx s2 t = .ok (wr s2 e) ∧
      (¬ (abbrevToken s.w.length).length < d.length → e = d) ∧
      ((abbrevToken s.w.length).length < d.length →
        e = abbrevToken s.w.length) := by
  obtain ⟨d, s1a, hsty, hw, hhead, hne, hab⟩ := enc_ty_first cx hmiss h
  have hent : cacheLookup s'.abbrevs t =
      some (if (abbrevToken s.w.length).length < d.length
            then abbrevToken s.w.length else d) := by
    rw [hab, cacheLookup_cons, if_pos rfl]
  have hl2 := cacheExt_keep (Reach_post hreach).2 hent
  refine ⟨d, _, hw, hl2, enc_ty_hit cx hl2, ?_, ?_⟩
  · intro hge
    rw [if_neg hge]
  · intro hlt
    rw [if_pos hlt]

/-- Witness for the amended C3, at `t = bool` (span `b`, candidate not
shorter, so the later call replays the verbatim span). -/
theorem claim_C3_determinism_witness :
    cacheLookup ([] : List (Ty × List Nat)) .TyBool = none ∧
    ∃ d e, ([98] : List Nat) = [] ++ d ∧
      cacheLookup [(Ty.TyBool, [98])] .TyBool = some e ∧
      enc_ty ⟨fun _ => [], fun _ => .Misc 0⟩ ⟨[98], [(.TyBool, [98])]⟩
        .TyBool = .ok (wr ⟨[98], [(.TyBool, [98])]⟩ e) ∧
      (¬ (abbrevToken 0).length < d.length → e = d) ∧
      ((abbrevToken 0).length < d.length → e = abbrevToken 0) :=
  ⟨rfl, claim_C3_determinism ⟨fun _ => [], fun _ => .Misc 0⟩ ⟨[], []⟩
    .TyBool ⟨[98], [(.TyBool, [98])]⟩ _ rfl
    (by simp [enc_ty, enc_sty, cacheLookup, wr, strBytes, abbrevToken,
      leb128, EncRes.bind])
    (.refl _)⟩

/-- C4 counterexample: the claim says the abort happens before any partial
output is produced for the call on an input containing an illegal
variant. Encoding `Box<TyInfer>` writes the tag `~` (byte 126) before the
nested dispatch aborts, so the call does produce partial output. -/
theorem claim_C4_counterexample :
    enc_ty ⟨fun _ => [], fun _ => .Misc 0⟩ ⟨[], []⟩ (.TyBox (.TyInfer 0)) =
      .err "cannot encode inference variable types" ⟨[126], []⟩ ∧
    ([126] : List Nat) ≠ [] := by
  refine ⟨?_, by decide⟩
  simp [enc_ty, enc_sty, cacheLookup, wr, strBytes, EncRes.bind]

/-- C4 (amended): in a session whose cache holds only legal keys, the
encoders unconditionally abort on every input containing an illegal
variant — a `TyInfer` type, an inference/skolemized region, or a
substitution element that is neither type nor region — and the dispatch
arm of the illegal variant itself writes nothing (the aborting frame
leaves the stream exactly as it received it); enclosing encoders may
already have written surrounding bytes. -/
theorem claim_C4_illegal_abort (cx : Ctxt) (s : EncSt) (t : Ty) (v : Nat)
    (r : Region) (ks : List Kind)
    (hc : ∀ k, tyIll k = true → cacheLookup s.abbrevs k = none)
    (ht : tyIll t = true) (hr : regionIll r = true)
    (hks : kindsIll ks = true) :
    (∃ m s1, enc_ty cx s t = .err m s1) ∧
    enc_sty cx s (.TyInfer v) =
      .err "cannot encode inference variable types" s ∧
    enc_region cx s r = .err "cannot encode region variables" s ∧
    (∃ m s1, enc_substs cx s ks = .err m s1) ∧
    enc_params cx s (.other :: ks) = .err "" s := by
  refine ⟨(enc_ty_ill cx s t hc).1 ht, by simp only [enc_sty],
    enc_region_ill cx s r hr, (enc_substs_ill cx s ks hc).1 hks,
    by simp only [enc_params]⟩

/-- Witness for the amended C4 at `t = Box<TyInfer>`, `r = ReVar 0`,
`ks = [other]` from an empty session. -/
theorem claim_C4_illegal_abort_witness :
    (∀ k, tyIll k = true →
      cacheLookup ([] : List (Ty × List Nat)) k = none) ∧
    tyIll (.TyBox (.TyInfer 0)) = true ∧
    regionIll (.ReVar 0) = true ∧
    kindsIll [.other] = true ∧
    ((∃ m s1, enc_ty ⟨fun _ => [], fun _ => .Misc 0⟩ ⟨[], []⟩
        (.TyBox (.TyInfer 0)) = .err m s1) ∧
      enc_sty ⟨fun _ => [], fun _ => .Misc 0⟩ ⟨[], []⟩ (.TyInfer 0) =
        .err "cannot encode inference variable types" ⟨[], []⟩ ∧
      enc_region ⟨fun _ => [], fun _ => .Misc 0⟩ ⟨[], []⟩ (.ReVar 0) =
        .err "cannot encode region variables" ⟨[], []⟩ ∧
      (∃ m s1, enc_substs ⟨fun _ => [], fun _ => .Misc 0⟩ ⟨[], []⟩
        [.other] = .err m s1) ∧
      enc_params ⟨fun _ => [], fun _ => .Misc 0⟩ ⟨[], []⟩
        (.other :: [.other]) = .err "" ⟨[], []⟩) :=
  ⟨fun _ _ => rfl, by simp [tyIll], rfl, by simp [kindsIll, kindIll],
    claim_C4_illegal_abort ⟨fun _ => [], fun _ => .Misc 0⟩ ⟨[], []⟩
      (.TyBox (.TyInfer 0)) 0 (.ReVar 0) [.other] (fun _ _ => rfl)
      (by simp [tyIll]) rfl (by simp [kindsIll, kindIll])⟩

/-- C5 (concrete cases), each from an empty abbreviation cache: `bool`
encodes as `b`; the fixed array of `bool` with length 4 as `Vb/4|`; the
tuple `(bool, char)` as `T[bc]`; the immutable reference to `bool` under
the static region as `&tb` (reference tag, static-region tag, empty
mutability marker, pointee). -/
theorem claim_C5_concrete_cases :
    enc_ty ⟨fun _ => [], fun _ => .Misc 0⟩ ⟨[], []⟩ .TyBool =
      .ok ⟨strBytes "b", [(.TyBool, strBytes "b")]⟩ ∧
    enc_ty ⟨fun _ => [], fun _ => .Misc 0⟩ ⟨[], []⟩ (.TyArray .TyBool 4) =
      .ok ⟨strBytes "Vb/4|",
        [(.TyArray .TyBool 4, [35, 0]), (.TyBool, strBytes "b")]⟩ ∧
    enc_ty ⟨fun _ => [], fun _ => .Misc 0⟩ ⟨[], []⟩
      (.TyTuple [.TyBool, .TyChar]) =
      .ok ⟨strBytes "T[bc]",
        [(.TyTuple [.TyBool, .TyChar], [35, 0]), (.TyChar, strBytes "c"),
         (.TyBool, strBytes "b")]⟩ ∧
    enc_ty ⟨fun _ => [], fun _ => .Misc 0⟩ ⟨[], []⟩
      (.TyRef .ReStatic .MutImmutable .TyBool) =
      .ok ⟨strBytes "&tb",
        [(.TyRef .ReStatic .MutImmutable .TyBool, [35, 0]),
         (.TyBool, strBytes "b")]⟩ := by
  refine ⟨?_, ?_, ?_, ?_⟩
  · simp [enc_ty, enc_sty, cacheLookup, wr, strBytes, abbrevToken, leb128,
      EncRes.bind]
  · simp [enc_ty, enc_sty, cacheLookup, wr, strBytes, decBytes, abbrevToken,
      leb128, EncRes.bind, tyBeq]
    decide
  · simp [enc_ty, enc_sty, enc_tys, cacheLookup, wr, strBytes, abbrevToken,
      leb128, EncRes.bind, tyBeq, tysBeq]
  · simp [enc_ty, enc_sty, enc_mt, enc_region, enc_mutability, cacheLookup,
      wr, strBytes, abbrevToken, leb128, EncRes.bind, tyBeq]

/-- C6: the claim says the abbreviation token `#` + LEB128(pos) never
contains the field separator `|` (byte 124). The code's own comment says
the format should not contain pipe characters, but for `pos = 124` the
minimal LEB128 encoding is the single byte 124, so the token is exactly
`# |` and does contain the separator. -/
theorem claim_C6_token_pipe :
    abbrevToken 124 = [35, 124] ∧ strBytes "|" = [124] ∧
    124 ∈ abbrevToken 124 := by
  have h : leb128 124 = [124] := by
    rw [leb128]
    norm_num
  exact ⟨by rw [abbrevToken, h], by decide, by rw [abbrevToken, h]; decide⟩

/-- C7 (cache written once per type per session): after the first
completed `enc_ty` on a cache-missing `t` the entry for `t` exists, every
later state of the session still maps `t` to the same entry, and a later
`enc_ty` call on `t` replays it without inserting or modifying anything
(on a hit the cache is returned unchanged). -/
theorem claim_C7_cache_once (cx : Ctxt) (s : EncSt) (t : Ty)
    (s' s2 : EncSt) (hmiss : cacheLookup s.abbrevs t = none)
    (h : enc_ty cx s t = .ok s') (hreach : Reach cx s' s2) :
    ∃ e, cacheLookup s'.abbrevs t = some e ∧
      cacheLookup s2.abbrevs t = some e ∧
      enc_ty cx s2 t = .ok (wr s2 e) ∧
      (wr s2 e).abbrevs = s2.abbrevs := by
  obtain ⟨d, s1a, hsty, hw, hhead, hne, hab⟩ := enc_ty_first cx hmiss h
  have hent : cacheLookup s'.abbrevs t =
      some (if (abbrevToken s.w.length).length < d.length
            then abbrevToken s.w.length else d) := by
    rw [hab, cacheLookup_cons, if_pos rfl]
  have hl2 := cacheExt_keep (Reach_post hreach).2 hent
  exact ⟨_, hent, hl2, enc_ty_hit cx hl2, rfl⟩

/-- Witness for C7 at `t = bool` from an empty session. -/
theorem claim_C7_cache_once_witness :
    cacheLookup ([] : List (Ty × List Nat)) .TyBool = none ∧
    ∃ e, cacheLookup [(Ty.TyBool, [98])] .TyBool = some e ∧
      cacheLookup [(Ty.TyBool, [98])] .TyBool = some e ∧
      enc_ty ⟨fun _ => [], fun _ => .Misc 0⟩ ⟨[98], [(.TyBool, [98])]⟩
        .TyBool = .ok (wr ⟨[98], [(.TyBool, [98])]⟩ e) ∧
      (wr ⟨[98], [(.TyBool, [98])]⟩ e).abbrevs = [(Ty.TyBool, [98])] :=
  ⟨rfl, claim_C7_cache_once ⟨fun _ => [], fun _ => .Misc 0⟩ ⟨[], []⟩
    .TyBool ⟨[98], [(.TyBool, [98])]⟩ _ rfl
    (by simp [enc_ty, enc_sty, cacheLookup, wr, strBytes, abbrevToken,
      leb128, EncRes.bind])
    (.refl _)⟩

/-- C9 (`enc_opt` at the public interface): the option encoder writes the
single byte `n` when the value is absent and the byte `s` immediately
followed by the payload encoding when present; `enc_generics` uses it for
the parent definition path (right at the start of its output) and
`enc_type_param_def` for the optional default type (right after its
header fields). -/
theorem claim_C9_enc_opt (α : Type) (f : EncSt → α → EncRes) (w : EncSt)
    (x : α) (cx : Ctxt) (s sv : EncSt) (g : Generics)
    (v : TypeParameterDef) (s1 s2 : EncSt)
    (hg : enc_generics cx s g = .ok s1)
    (hv : enc_type_param_def cx sv v = .ok s2) :
    enc_opt w none f = .ok (wr w (strBytes "n")) ∧
    enc_opt w (some x) f = f (wr w (strBytes "s")) x ∧
    (∃ rest, s1.w = s.w ++ (match g.parent with
        | none => strBytes "n"
        | some did => strBytes "s" ++ cx.ds did ++ strBytes "|") ++ rest) ∧
    (∃ rest, s2.w = sv.w ++ (v.name ++ strBytes ":" ++ cx.ds v.def_id
        ++ strBytes "|" ++ decBytes v.index ++ strBytes "|"
        ++ cx.ds v.default_def_id ++ strBytes "|")
      ++ (match v.default with
          | none => strBytes "n"
          | some _ => strBytes "s") ++ rest) := by
  refine ⟨rfl, rfl, ?_, ?_⟩
  · rw [enc_generics] at hg
    obtain ⟨sA, hA, hCont⟩ := bind_ok hg
    have hp : Post sA
        ((enc_rpds cx (wr sA (decBytes g.parent_regions ++ strBytes "|"
            ++ decBytes g.parent_types ++ strBytes "[")) g.regions).bind
          fun s3 => (enc_tpds cx (wr s3 (strBytes "|")) g.types).bind
            fun s4 => .ok (wr (wr s4 (strBytes "]"))
              (strBytes (if g.has_self then "S" else "N")))) := by
      apply post_of_wr
      refine post_bind (enc_rpds_post cx _ g.regions) ?_
      intro s3 _
      apply post_of_wr
      refine post_bind (enc_tpds_post cx _ g.types) ?_
      intro s4 _
      apply post_of_wr
      exact post_wr ..
    obtain ⟨rest, hrest⟩ := post_w_of_ok hp hCont
    cases hgp : g.parent with
    | none =>
      rw [hgp] at hA
      rw [enc_opt] at hA
      injection hA with hA'
      refine ⟨rest, ?_⟩
      rw [hrest, ← hA']
      rfl
    | some did =>
      rw [hgp] at hA
      rw [enc_opt] at hA
      injection hA with hA'
      refine ⟨rest, ?_⟩
      rw [hrest, ← hA']
      simp [wr, List.append_assoc]
  · rw [enc_type_param_def] at hv
    obtain ⟨sA, hA, hOld⟩ := bind_ok hv
    obtain ⟨r2, hr2⟩ := post_w_of_ok
      (enc_object_lifetime_default_post cx sA v.object_lifetime_default) hOld
    cases hvd : v.default with
    | none =>
      rw [hvd] at hA
      rw [enc_opt] at hA
      injection hA with hA'
      refine ⟨r2, ?_⟩
      rw [hr2, ← hA']
      rfl
    | some tdef =>
      rw [hvd] at hA
      rw [enc_opt] at hA
      obtain ⟨r1, hr1⟩ := post_w_of_ok
        (enc_ty_post cx (wr (wr sv (v.name ++ strBytes ":" ++ cx.ds v.def_id
          ++ strBytes "|" ++ decBytes v.index ++ strBytes "|"
          ++ cx.ds v.default_def_id ++ strBytes "|")) (strBytes "s")) tdef)
        hA
      refine ⟨r1 ++ r2, ?_⟩
      rw [hr2, hr1]
      simp [wr, List.append_assoc]

/-- Witness for C9: a generics record with no parent and a type-parameter
definition with no default, from an empty session, plus the generic
`enc_opt` equations at a trivial payload encoder. -/
theorem claim_C9_enc_opt_witness :
    enc_generics ⟨fun _ => [], fun _ => .Misc 0⟩ ⟨[], []⟩
      ⟨none, 0, 0, [], [], false⟩ =
      .ok ⟨[110, 48, 124, 48, 91, 124, 93, 78], []⟩ ∧
    enc_type_param_def ⟨fun _ => [], fun _ => .Misc 0⟩ ⟨[], []⟩
      ⟨strBytes "T", 1, 0, 2, none, .Ambiguous⟩ =
      .ok ⟨[84, 58, 124, 48, 124, 124, 110, 97], []⟩ ∧
    (enc_opt (⟨[], []⟩ : EncSt) none (fun (s : EncSt) (_ : Nat) => .ok s) =
        .ok (wr ⟨[], []⟩ (strBytes "n")) ∧
      enc_opt (⟨[], []⟩ : EncSt) (some 7)
          (fun (s : EncSt) (_ : Nat) => .ok s) =
        (fun (s : EncSt) (_ : Nat) => (.ok s : EncRes))
          (wr ⟨[], []⟩ (strBytes "s")) 7 ∧
      (∃ rest, ([110, 48, 124, 48, 91, 124, 93, 78] : List Nat) =
        [] ++ (match (none : Option Nat) with
          | none => strBytes "n"
          | some did => strBytes "s"
              ++ (fun _ => ([] : List Nat)) did ++ strBytes "|") ++ rest) ∧
      (∃ rest, ([84, 58, 124, 48, 124, 124, 110, 97] : List Nat) =
        [] ++ (strBytes "T" ++ strBytes ":" ++ [] ++ strBytes "|"
          ++ decBytes 0 ++ strBytes "|" ++ [] ++ strBytes "|")
        ++ (match (none : Option Ty) with
            | none => strBytes "n"
            | some _ => strBytes "s") ++ rest)) := by
  have hg : enc_generics ⟨fun _ => [], fun _ => .Misc 0⟩ ⟨[], []⟩
      ⟨none, 0, 0, [], [], false⟩ =
      .ok ⟨[110, 48, 124, 48, 91, 124, 93, 78], []⟩ := by
    simp [enc_generics, enc_opt, enc_rpds, enc_tpds, wr, strBytes, decBytes,
      EncRes.bind]
    decide
  have hv : enc_type_param_def ⟨fun _ => [], fun _ => .Misc 0⟩ ⟨[], []⟩
      ⟨strBytes "T", 1, 0, 2, none, .Ambiguous⟩ =
      .ok ⟨[84, 58, 124, 48, 124, 124, 110, 97], []⟩ := by
    simp [enc_type_param_def, enc_opt, enc_object_lifetime_default, wr,
      strBytes, decBytes, EncRes.bind]
    decide
  exact ⟨hg, hv,
    claim_C9_enc_opt Nat (fun s _ => .ok s) ⟨[], []⟩ 7
      ⟨fun _ => [], fun _ => .Misc 0⟩ ⟨[], []⟩ ⟨[], []⟩
      ⟨none, 0, 0, [], [], false⟩ ⟨strBytes "T", 1, 0, 2, none, .Ambiguous⟩
      ⟨[110, 48, 124, 48, 91, 124, 93, 78], []⟩
      ⟨[84, 58, 124, 48, 124, 124, 110, 97], []⟩ hg hv⟩

/-- C10 (field order): `enc_closure_ty` writes the unsafety flag, then the
function signature, and the bracketed ABI name last, while
`enc_bare_fn_ty` writes the unsafety flag, then the bracketed ABI name,
then the signature. -/
theorem claim_C10_field_order (cx : Ctxt) (s sb : EncSt) (cf : ClosureTy)
    (u : Unsafety) (abi : List Nat) (fsig : FnSig) (s1 s2 : EncSt)
    (hc : enc_closure_ty cx s cf = .ok s1)
    (hb : enc_bare_fn_ty cx sb (.mk u abi fsig) = .ok s2) :
    (∃ sA sig, enc_fn_sig cx (enc_unsafety s cf.unsafety) cf.sig = .ok sA ∧
      sA.w = s.w ++ ustr cf.unsafety ++ sig ∧
      s1.w = sA.w ++ strBytes "[" ++ cf.abi ++ strBytes "]") ∧
    (∃ sig, s2.w = sb.w ++ ustr u ++ strBytes "[" ++ abi ++ strBytes "]"
        ++ sig ∧
      enc_fn_sig cx (enc_abi (enc_unsafety sb u) abi) fsig = .ok s2) := by
  constructor
  · rw [enc_closure_ty] at hc
    obtain ⟨sA, h1, h2⟩ := bind_ok hc
    injection h2 with h2'
    obtain ⟨sig, hsig⟩ := post_w_of_ok
      (enc_fn_sig_post cx (enc_unsafety s cf.unsafety) cf.sig) h1
    refine ⟨sA, sig, h1, ?_, ?_⟩
    · rw [hsig, enc_unsafety_eq]
      rfl
    · rw [← h2']
      rfl
  · simp only [enc_bare_fn_ty] at hb
    obtain ⟨sig, hsig⟩ := post_w_of_ok
      (enc_fn_sig_post cx (enc_abi (enc_unsafety sb u) abi) fsig) hb
    refine ⟨sig, ?_, hb⟩
    rw [hsig, enc_unsafety_eq]
    simp [enc_abi, wr, List.append_assoc]

/-- Witness for C10: a unit closure/function type with the `Rust` ABI from
an empty session; the closure output is `n []Nb [Rust]`, the bare
function output is `n [Rust] []Nb`. -/
theorem claim_C10_field_order_witness :
    enc_closure_ty ⟨fun _ => [], fun _ => .Misc 0⟩ ⟨[], []⟩
      ⟨.Normal, strBytes "Rust", .mk [] .TyBool false⟩ =
      .ok ⟨[110, 91, 93, 78, 98, 91, 82, 117, 115, 116, 93],
        [(.TyBool, [98])]⟩ ∧
    enc_bare_fn_ty ⟨fun _ => [], fun _ => .Misc 0⟩ ⟨[], []⟩
      (.mk .Normal (strBytes "Rust") (.mk [] .TyBool false)) =
      .ok ⟨[110, 91, 82, 117, 115, 116, 93, 91, 93, 78, 98],
        [(.TyBool, [98])]⟩ ∧
    ((∃ sA sig,
        enc_fn_sig ⟨fun _ => [], fun _ => .Misc 0⟩
          (enc_unsafety ⟨[], []⟩ .Normal) (.mk [] .TyBool false) =
          .ok sA ∧
        sA.w = [] ++ ustr .Normal ++ sig ∧
        ([110, 91, 93, 78, 98, 91, 82, 117, 115, 116, 93] : List Nat) =
          sA.w ++ strBytes "[" ++ strBytes "Rust" ++ strBytes "]") ∧
      (∃ sig, ([110, 91, 82, 117, 115, 116, 93, 91, 93, 78, 98] : List Nat) =
          [] ++ ustr .Normal ++ strBytes "[" ++ strBytes "Rust"
          ++ strBytes "]" ++ sig ∧
        enc_fn_sig ⟨fun _ => [], fun _ => .Misc 0⟩
          (enc_abi (enc_unsafety ⟨[], []⟩ .Normal) (strBytes "Rust"))
          (.mk [] .TyBool false) =
          .ok ⟨[110, 91, 82, 117, 115, 116, 93, 91, 93, 78, 98],
            [(.TyBool, [98])]⟩)) := by
  have hc : enc_closure_ty ⟨fun _ => [], fun _ => .Misc 0⟩ ⟨[], []⟩
      ⟨.Normal, strBytes "Rust", .mk [] .TyBool false⟩ =
      .ok ⟨[110, 91, 93, 78, 98, 91, 82, 117, 115, 116, 93],
        [(.TyBool, [98])]⟩ := by
    simp [enc_closure_ty, enc_fn_sig, enc_tys, enc_ty, enc_sty, enc_unsafety,
      enc_abi, cacheLookup, wr, strBytes, abbrevToken, leb128, EncRes.bind]
  have hb : enc_bare_fn_ty ⟨fun _ => [], fun _ => .Misc 0⟩ ⟨[], []⟩
      (.mk .Normal (strBytes "Rust") (.mk [] .TyBool false)) =
      .ok ⟨[110, 91, 82, 117, 115, 116, 93, 91, 93, 78, 98],
        [(.TyBool, [98])]⟩ := by
    simp [enc_bare_fn_ty, enc_fn_sig, enc_tys, enc_ty, enc_sty, enc_unsafety,
      enc_abi, cacheLookup, wr, strBytes, abbrevToken, leb128, EncRes.bind]
  exact ⟨hc, hb,
    claim_C10_field_order ⟨fun _ => [], fun _ => .Misc 0⟩ ⟨[], []⟩ ⟨[], []⟩
      ⟨.Normal, strBytes "Rust", .mk [] .TyBool false⟩ .Normal
      (strBytes "Rust") (.mk [] .TyBool false)
      ⟨[110, 91, 93, 78, 98, 91, 82, 117, 115, 116, 93], [(.TyBool, [98])]⟩
      ⟨[110, 91, 82, 117, 115, 116, 93, 91, 93, 78, 98], [(.TyBool, [98])]⟩
      hc hb⟩

/-! ## Termination, made explicit

A fuel-indexed interpreter of the same mutual recursion, structurally
recursive on the fuel (one unit per call); `none` means the fuel ran out.
It agrees with the encoders whenever the fuel is at least the structural
measure of the input, which is the well-foundedness content of the
mutual recursion: the call depth is bounded by the size of the type
expression. -/

def obind : Option EncRes → (EncSt → Option EncRes) → Option EncRes
  | none, _ => none
  | some (.ok s), f => f s
  | some (.err m s), _ => some (.err m s)

mutual

def enc_tyF : Nat → Ctxt → EncSt → Ty → Option EncRes
  | 0, _, _, _ => none
  | fuel+1, cx, s, t =>
    match cacheLookup s.abbrevs t with
    | some a => some (.ok (wr s a))
    | none =>
      let pos := s.w.length
      obind (enc_styF fuel cx s t) fun s1 =>
        let end_ := s1.w.length
        let len := end_ - pos
        let atok := abbrevToken pos
        some (.ok { s1 with
          abbrevs :=
            (t, if atok.length < len then atok
                else (s1.w.drop pos).take (end_ - pos)) :: s1.abbrevs })

def enc_styF : Nat → Ctxt → EncSt → Ty → Option EncRes
  | 0, _, _, _ => none
  | fuel+1, cx, s, t =>
    match t with
    | .TyBool => some (.ok (wr s (strBytes "b")))
    | .TyChar => some (.ok (wr s (strBytes "c")))
    | .TyNever => some (.ok (wr s (strBytes "!")))
    | .TyInt it =>
      some (.ok (wr s (strBytes (match it with
        | .Is => "is" | .I8 => "MB" | .I16 => "MW" | .I32 => "ML"
        | .I64 => "MD"))))
    | .TyUint ut =>
      some (.ok (wr s (strBytes (match ut with
        | .Us => "us" | .U8 => "Mb" | .U16 => "Mw" | .U32 => "Ml"
        | .U64 => "Md"))))
    | .TyFloat ft =>
      some (.ok (wr s (strBytes (match ft with | .F32 => "Mf" | .F64 => "MF"))))
    | .TyTrait principal builtin_bounds region_bound projection_bounds =>
      obind (enc_existential_trait_refF fuel cx (wr s (strBytes "x["))
          principal) fun s1 =>
        obind (some (enc_region cx (enc_builtin_bounds s1 builtin_bounds)
            region_bound)) fun s2 =>
          obind (enc_projsF fuel cx s2 projection_bounds) fun s3 =>
            some (.ok (wr (wr s3 (strBytes ".")) (strBytes "]")))
    | .TyTuple ts =>
      obind (enc_tysF fuel cx (wr s (strBytes "T[")) ts) fun s1 =>
        some (.ok (wr s1 (strBytes "]")))
    | .TyBox typ => enc_tyF fuel cx (wr s (strBytes "~")) typ
    | .TyRawPtr mutbl ty => enc_mtF fuel cx (wr s (strBytes "*")) mutbl ty
    | .TyRef r mutbl ty =>
      obind (some (enc_region cx (wr s (strBytes "&")) r)) fun s1 =>
        enc_mtF fuel cx s1 mutbl ty
    | .TyArray t1 sz =>
      obind (enc_tyF fuel cx (wr s (strBytes "V")) t1) fun s1 =>
        some (.ok (wr s1 (strBytes "/" ++ decBytes sz ++ strBytes "|")))
    | .TySlice t1 =>
      obind (enc_tyF fuel cx (wr s (strBytes "V")) t1) fun s1 =>
        some (.ok (wr s1 (strBytes "/|")))
    | .TyStr => some (.ok (wr s (strBytes "v")))
    | .TyFnDef def_id substs f =>
      obind (enc_substsF fuel cx
          (wr s (strBytes "F" ++ cx.ds def_id ++ strBytes "|")) substs)
        fun s1 => enc_bare_fn_tyF fuel cx s1 f
    | .TyFnPtr f => enc_bare_fn_tyF fuel cx (wr s (strBytes "G")) f
    | .TyInfer _ => some (.err "cannot encode inference variable types" s)
    | .TyParam idx name =>
      some (.ok (wr s (strBytes "p[" ++ decBytes idx ++ strBytes "|" ++ name
        ++ strBytes "]")))
    | .TyAdt did substs =>
      obind (enc_substsF fuel cx
          (wr s (strBytes "a[" ++ cx.ds did ++ strBytes "|")) substs)
        fun s1 => some (.ok (wr s1 (strBytes "]")))
    | .TyClosure d func_substs upvar_tys =>
      obind (enc_substsF fuel cx
          (wr s (strBytes "k[" ++ cx.ds d ++ strBytes "|")) func_substs)
        fun s1 =>
          obind (enc_tysF fuel cx s1 upvar_tys) fun s2 =>
            some (.ok (wr (wr s2 (strBytes ".")) (strBytes "]")))
    | .TyProjection trait_ref item_name =>
      obind (enc_trait_refF fuel cx (wr s (strBytes "P[")) trait_ref)
        fun s1 => some (.ok (wr s1 (item_name ++ strBytes "]")))
    | .TyAnon def_id substs =>
      obind (enc_substsF fuel cx
          (wr s (strBytes "A[" ++ cx.ds def_id ++ strBytes "|")) substs)
        fun s1 => some (.ok (wr s1 (strBytes "]")))
    | .TyError => some (.ok (wr s (strBytes "e")))

def enc_tysF : Nat → Ctxt → EncSt → List Ty → Option EncRes
  | 0, _, _, _ => none
  | fuel+1, cx, s, ts =>
    match ts with
    | [] => some (.ok s)
    | t :: rest =>
      obind (enc_tyF fuel cx s t) fun s1 => enc_tysF fuel cx s1 rest

def enc_mtF : Nat → Ctxt → EncSt → Mutability → Ty → Option EncRes
  | 0, _, _, _, _ => none
  | fuel+1, cx, s, mutbl, ty => enc_tyF fuel cx (enc_mutability s mutbl) ty

def enc_substsF : Nat → Ctxt → EncSt → List Kind → Option EncRes
  | 0, _, _, _ => none
  | fuel+1, cx, s, substs =>
    obind (enc_paramsF fuel cx (wr s (strBytes "[")) substs) fun s1 =>
      some (.ok (wr s1 (strBytes "]")))

def enc_paramsF : Nat → Ctxt → EncSt → List Kind → Option EncRes
  | 0, _, _, _ => none
  | fuel+1, cx, s, ks =>
    match ks with
    | [] => some (.ok s)
    | .asType ty :: rest =>
      obind (enc_tyF fuel cx (wr s (strBytes "t")) ty) fun s1 =>
        enc_paramsF fuel cx s1 rest
    | .asRegion r :: rest =>
      obind (some (enc_region cx (wr s (strBytes "r")) r)) fun s1 =>
        enc_paramsF fuel cx s1 rest
    | .other :: _ => some (.err "" s)

def enc_trait_refF : Nat → Ctxt → EncSt → TraitRef → Option EncRes
  | 0, _, _, _ => none
  | fuel+1, cx, s, .mk def_id substs =>
    enc_substsF fuel cx (wr s (cx.ds def_id ++ strBytes "|")) substs

def enc_existential_trait_refF :
    Nat → Ctxt → EncSt → ExistentialTraitRef → Option EncRes
  | 0, _, _, _ => none
  | fuel+1, cx, s, .mk def_id substs =>
    enc_substsF fuel cx (wr s (cx.ds def_id ++ strBytes "|")) substs

def enc_projsF :
    Nat → Ctxt → EncSt → List ExistentialProjection → Option EncRes
  | 0, _, _, _ => none
  | fuel+1, cx, s, ps =>
    match ps with
    | [] => some (.ok s)
    | p :: rest =>
      obind (enc_existential_projectionF fuel cx (wr s (strBytes "P")) p)
        fun s1 => enc_projsF fuel cx s1 rest

def enc_existential_projectionF :
    Nat → Ctxt → EncSt → ExistentialProjection → Option EncRes
  | 0, _, _, _ => none
  | fuel+1, cx, s, .mk trait_ref item_name ty =>
    obind (enc_existential_trait_refF fuel cx s trait_ref) fun s1 =>
      enc_tyF fuel cx (wr s1 (item_name ++ strBytes "|")) ty

def enc_bare_fn_tyF : Nat → Ctxt → EncSt → BareFnTy → Option EncRes
  | 0, _, _, _ => none
  | fuel+1, cx, s, .mk unsafety abi sig =>
    enc_fn_sigF fuel cx (enc_abi (enc_unsafety s unsafety) abi) sig

def enc_fn_sigF : Nat → Ctxt → EncSt → FnSig → Option EncRes
  | 0, _, _, _ => none
  | fuel+1, cx, s, .mk inputs output variadic =>
    obind (enc_tysF fuel cx (wr s (strBytes "[")) inputs) fun s1 =>
      enc_tyF fuel cx
        (wr (wr s1 (strBytes "]"))
          (strBytes (if variadic then "V" else "N"))) output

end

theorem obind_agree {r : EncRes} {F : EncSt → Option EncRes}
    {G : EncSt → EncRes} (h : ∀ s', F s' = some (G s')) :
    obind (some r) F = some (r.bind G) := by
  cases r with
  | ok s' => simpa [obind, EncRes.bind] using h s'
  | err m s' => simp [obind, EncRes.bind]

mutual

theorem enc_tyF_agree (fuel : Nat) (cx : Ctxt) (s : EncSt) (t : Ty)
    (hf : 3 * sizeOf t + 2 ≤ fuel) :
    enc_tyF fuel cx s t = some (enc_ty cx s t) := by
  cases fuel with
  | zero => omega
  | succ fuel =>
    simp only [enc_tyF]
    rw [enc_ty]
    cases hl : cacheLookup s.abbrevs t with
    | some a => rfl
    | none =>
      rw [enc_styF_agree fuel cx s t (by omega)]
      exact obind_agree fun s' => rfl

theorem enc_styF_agree (fuel : Nat) (cx : Ctxt) (s : EncSt) (t : Ty)
    (hf : 3 * sizeOf t + 1 ≤ fuel) :
    enc_styF fuel cx s t = some (enc_sty cx s t) := by
  cases fuel with
  | zero =>
    exfalso
    omega
  | succ fuel =>
    cases t with
    | TyBool => simp [enc_styF, enc_sty]
    | TyChar => simp [enc_styF, enc_sty]
    | TyNever => simp [enc_styF, enc_sty]
    | TyStr => simp [enc_styF, enc_sty]
    | TyError => simp [enc_styF, enc_sty]
    | TyInfer v => simp [enc_styF, enc_sty]
    | TyParam idx name => simp [enc_styF, enc_sty]
    | TyInt it => cases it <;> simp [enc_styF, enc_sty]
    | TyUint ut => cases ut <;> simp [enc_styF, enc_sty]
    | TyFloat ft => cases ft <;> simp [enc_styF, enc_sty]
    | TyTrait principal builtin_bounds region_bound projection_bounds =>
      simp at hf
      simp only [enc_styF, enc_sty]
      rw [enc_existential_trait_refF_agree fuel cx _ principal (by omega)]
      refine obind_agree fun s1 => ?_
      refine obind_agree fun s2 => ?_
      rw [enc_projsF_agree fuel cx s2 projection_bounds (by omega)]
      exact obind_agree fun s3 => rfl
    | TyTuple ts =>
      simp at hf
      simp only [enc_styF, enc_sty]
      rw [enc_tysF_agree fuel cx _ ts (by omega)]
      exact obind_agree fun s1 => rfl
    | TyBox typ =>
      simp at hf
      simp only [enc_styF, enc_sty]
      exact enc_tyF_agree fuel cx _ typ (by omega)
    | TyRawPtr mutbl ty =>
      simp at hf
      simp only [enc_styF, enc_sty]
      exact enc_mtF_agree fuel cx _ mutbl ty (by omega)
    | TyRef r mutbl ty =>
      simp at hf
      simp only [enc_styF, enc_sty]
      exact obind_agree fun s1 => enc_mtF_agree fuel cx s1 mutbl ty (by omega)
    | TyArray t1 sz =>
      simp at hf
      simp only [enc_styF, enc_sty]
      rw [enc_tyF_agree fuel cx _ t1 (by omega)]
      exact obind_agree fun s1 => rfl
    | TySlice t1 =>
      simp at hf
      simp only [enc_styF, enc_sty]
      rw [enc_tyF_agree fuel cx _ t1 (by omega)]
      exact obind_agree fun s1 => rfl
    | TyFnDef def_id substs f =>
      simp at hf
      simp only [enc_styF, enc_sty]
      rw [enc_substsF_agree fuel cx _ substs (by omega)]
      exact obind_agree fun s1 => enc_bare_fn_tyF_agree fuel cx s1 f (by omega)
    | TyFnPtr f =>
      simp at hf
      simp only [enc_styF, enc_sty]
      exact enc_bare_fn_tyF_agree fuel cx _ f (by omega)
    | TyAdt did substs =>
      simp at hf
      simp only [enc_styF, enc_sty]
      rw [enc_substsF_agree fuel cx _ substs (by omega)]
      exact obind_agree fun s1 => rfl
    | TyClosure d func_substs upvar_tys =>
      simp at hf
      simp only [enc_styF, enc_sty]
      rw [enc_substsF_agree fuel cx _ func_substs (by omega)]
      refine obind_agree fun s1 => ?_
      rw [enc_tysF_agree fuel cx s1 upvar_tys (by omega)]
      exact obind_agree fun s2 => rfl
    | TyProjection trait_ref item_name =>
      simp at hf
      simp only [enc_styF, enc_sty]
      rw [enc_trait_refF_agree fuel cx _ trait_ref (by omega)]
      exact obind_agree fun s1 => rfl
    | TyAnon def_id substs =>
      simp at hf
      simp only [enc_styF, enc_sty]
      rw [enc_substsF_agree fuel cx _ substs (by omega)]
      exact obind_agree fun s1 => rfl

theorem enc_tysF_agree (fuel : Nat) (cx : Ctxt) (s : EncSt) (ts : List Ty)
    (hf : 3 * sizeOf ts + 1 ≤ fuel) :
    enc_tysF fuel cx s ts = some (enc_tys cx s ts) := by
  cases fuel with
  | zero => omega
  | succ fuel =>
    cases ts with
    | nil => simp [enc_tysF, enc_tys]
    | cons t rest =>
      simp at hf
      simp only [enc_tysF, enc_tys]
      rw [enc_tyF_agree fuel cx s t (by omega)]
      exact obind_agree fun s1 => enc_tysF_agree fuel cx s1 rest (by omega)

theorem enc_mtF_agree (fuel : Nat) (cx : Ctxt) (s : EncSt)
    (mutbl : Mutability) (ty : Ty) (hf : 3 * sizeOf ty + 3 ≤ fuel) :
    enc_mtF fuel cx s mutbl ty = some (enc_mt cx s mutbl ty) := by
  cases fuel with
  | zero => omega
  | succ fuel =>
    simp only [enc_mtF]
    rw [enc_mt]
    exact enc_tyF_agree fuel cx _ ty (by omega)

theorem enc_substsF_agree (fuel : Nat) (cx : Ctxt) (s : EncSt)
    (ks : List Kind) (hf : 3 * sizeOf ks + 3 ≤ fuel) :
    enc_substsF fuel cx s ks = some (enc_substs cx s ks) := by
  cases fuel with
  | zero => omega
  | succ fuel =>
    simp only [enc_substsF]
    rw [enc_substs]
    rw [enc_paramsF_agree fuel cx _ ks (by omega)]
    exact obind_agree fun s1 => rfl

theorem enc_paramsF_agree (fuel : Nat) (cx : Ctxt) (s : EncSt)
    (ks : List Kind) (hf : 3 * sizeOf ks + 2 ≤ fuel) :
    enc_paramsF fuel cx s ks = some (enc_params cx s ks) := by
  cases fuel with
  | zero => omega
  | succ fuel =>
    cases ks with
    | nil => simp [enc_paramsF, enc_params]
    | cons k rest =>
      cases k with
      | asType ty =>
        simp at hf
        simp only [enc_paramsF, enc_params]
        rw [enc_tyF_agree fuel cx _ ty (by omega)]
        exact obind_agree fun s1 =>
          enc_paramsF_agree fuel cx s1 rest (by omega)
      | asRegion r =>
        simp at hf
        simp only [enc_paramsF, enc_params]
        exact obind_agree fun s1 =>
          enc_paramsF_agree fuel cx s1 rest (by omega)
      | other => simp [enc_paramsF, enc_params]

theorem enc_trait_refF_agree (fuel : Nat) (cx : Ctxt) (s : EncSt)
    (tr : TraitRef) (hf : 3 * sizeOf tr + 1 ≤ fuel) :
    enc_trait_refF fuel cx s tr = some (enc_trait_ref cx s tr) := by
  cases fuel with
  | zero => omega
  | succ fuel =>
    cases tr with
    | mk def_id substs =>
      simp at hf
      simp only [enc_trait_refF, enc_trait_ref]
      exact enc_substsF_agree fuel cx _ substs (by omega)

theorem enc_existential_trait_refF_agree (fuel : Nat) (cx : Ctxt)
    (s : EncSt) (tr : ExistentialTraitRef)
    (hf : 3 * sizeOf tr + 1 ≤ fuel) :
    enc_existential_trait_refF fuel cx s tr =
      some (enc_existential_trait_ref cx s tr) := by
  cases fuel with
  | zero => omega
  | succ fuel =>
    cases tr with
    | mk def_id substs =>
      simp at hf
      simp only [enc_existential_trait_refF, enc_existential_trait_ref]
      exact enc_substsF_agree fuel cx _ substs (by omega)

theorem enc_projsF_agree (fuel : Nat) (cx : Ctxt) (s : EncSt)
    (ps : List ExistentialProjection) (hf : 3 * sizeOf ps + 1 ≤ fuel) :
    enc_projsF fuel cx s ps = some (enc_projs cx s ps) := by
  cases fuel with
  | zero => omega
  | succ fuel =>
    cases ps with
    | nil => simp [enc_projsF, enc_projs]
    | cons p rest =>
      simp at hf
      simp only [enc_projsF, enc_projs]
      rw [enc_existential_projectionF_agree fuel cx _ p (by omega)]
      exact obind_agree fun s1 => enc_projsF_agree fuel cx s1 rest (by omega)

theorem enc_existential_projectionF_agree (fuel : Nat) (cx : Ctxt)
    (s : EncSt) (p : ExistentialProjection)
    (hf : 3 * sizeOf p + 1 ≤ fuel) :
    enc_existential_projectionF fuel cx s p =
      some (enc_existential_projection cx s p) := by
  cases fuel with
  | zero => omega
  | succ fuel =>
    cases p with
    | mk trait_ref item_name ty =>
      simp at hf
      simp only [enc_existential_projectionF, enc_existential_projection]
      rw [enc_existential_trait_refF_agree fuel cx s trait_ref (by omega)]
      exact obind_agree fun s1 => enc_tyF_agree fuel cx _ ty (by omega)

theorem enc_bare_fn_tyF_agree (fuel : Nat) (cx : Ctxt) (s : EncSt)
    (ft : BareFnTy) (hf : 3 * sizeOf ft + 1 ≤ fuel) :
    enc_bare_fn_tyF fuel cx s ft = some (enc_bare_fn_ty cx s ft) := by
  cases fuel with
  | zero => omega
  | succ fuel =>
    cases ft with
    | mk unsafety abi sig =>
      simp at hf
      simp only [enc_bare_fn_tyF, enc_bare_fn_ty]
      exact enc_fn_sigF_agree fuel cx _ sig (by omega)

theorem enc_fn_sigF_agree (fuel : Nat) (cx : Ctxt) (s : EncSt)
    (fsig : FnSig) (hf : 3 * sizeOf fsig + 1 ≤ fuel) :
    enc_fn_sigF fuel cx s fsig = some (enc_fn_sig cx s fsig) := by
  cases fuel with
  | zero => omega
  | succ fuel =>
    cases fsig with
    | mk inputs output variadic =>
      simp at hf
      simp only [enc_fn_sigF, enc_fn_sig]
      rw [enc_tysF_agree fuel cx _ inputs (by omega)]
      exact obind_agree fun s1 => enc_tyF_agree fuel cx _ output (by omega)

end

/-- C8 (termination): the fuel-indexed interpreter spends one unit of fuel
at every call of the mutual recursion (`enc_ty`, `enc_substs`,
`enc_bare_fn_ty`, ...), and already computes the full result of `enc_ty`
with fuel `3 * sizeOf t + 2`: the recursion descends only into strict
substructure of the type expression, its call depth is bounded by the
structural size, and so `enc_ty` terminates on every finite type
expression. -/
theorem claim_C8_termination (cx : Ctxt) (s : EncSt) (t : Ty) :
    enc_tyF (3 * sizeOf t + 2) cx s t = some (enc_ty cx s t) :=
  enc_tyF_agree (3 * sizeOf t + 2) cx s t (Nat.le_refl _)
